import Mathlib

/-!
# Verification of the minesweeper repository

Shallow embedding of the two implementations in the repository:

* `Nyanko` embeds `nyankosweeper.py` (the object-oriented variant):
  `Cell`, `Board`, `Board.place_mines`, `Board.calculate_adjacents`,
  `Board.reveal`, `Board.toggle_mark`, `Board.all_clear`, and the
  `Game` loop (`handleKey`, `gameRun`).
* `MS` embeds `minesweeper.py` (the global-state variant): the
  `vvram`/`mask` grids, `putmines`, `calccell`/`calcfield`, `reveal`,
  `endcheck` and `mainloop`.

Python's unbounded machine integers are modelled by `Int` (coordinates)
and `Nat` (counts); the 2D Python lists `grid[x][y]` are modelled as
total functions `Int → Int → _` together with explicit bound predicates,
mirroring the explicit `0 <= nx < width` checks of the source.  The
recursive flood fill is modelled with an explicit fuel parameter; fuel
`width*height + 1` is proved sufficient (the source recursion terminates
because every recursive call happens after one more cell was revealed,
so its depth is bounded by the number of cells).  Keyboard input is
modelled as a list of characters, the blocking `getkey()` as taking the
head of that list (result `none` when the program would block forever).
`random.randint` is modelled as an ambient stream `Nat → Int × Int` of
picks.
-/

namespace Nyanko

/-- Embedding of `class Cell` of nyankosweeper.py: `mine`, `revealed`,
`mark` (0 = `＃`/none, 1 = `🚩`/flag, 2 = `？`/question), `adjacent`. -/
structure Cell where
  mine : Bool
  revealed : Bool
  mark : Nat
  adjacent : Nat
deriving DecidableEq, Repr

/-- `Cell.__init__`: all fields zeroed. -/
def Cell.init : Cell := ⟨false, false, 0, 0⟩

/-- Embedding of `class Board`: a grid of cells with its dimensions and
requested mine count.  The Python list-of-lists `grid[x][y]` is a total
function; only indices `0 ≤ x < width`, `0 ≤ y < height` are ever used
by the embedded operations, mirroring the bound checks of the source. -/
structure Board where
  width : Nat
  height : Nat
  mines : Nat
  grid : Int → Int → Cell

/-- Write one cell of the grid (models in-place mutation of
`self.grid[x][y]`). -/
def Board.set (b : Board) (x y : Int) (c : Cell) : Board :=
  { b with grid := fun a b' => if a = x ∧ b' = y then c else b.grid a b' }

/-- In-bounds predicate, mirroring `0 <= x < self.width and 0 <= y < self.height`. -/
def inB (b : Board) (x y : Int) : Prop :=
  0 ≤ x ∧ x < (b.width : Int) ∧ 0 ≤ y ∧ y < (b.height : Int)

instance (b : Board) (x y : Int) : Decidable (inB b x y) := by
  unfold inB; infer_instance

/-- The cell coordinates in the iteration order of the source
(`for x in range(width): for y in range(height)`). -/
def coordList (w h : Nat) : List (Int × Int) :=
  (List.range w).flatMap fun (x : Nat) => (List.range h).map fun (y : Nat) => ((x : Int), (y : Int))

/-- The nine `(dx, dy)` offsets in the order generated by the nested
`for dx in (-1, 0, 1): for dy in (-1, 0, 1)` loops of the source. -/
def deltas9 : List (Int × Int) :=
  [(-1, -1), (-1, 0), (-1, 1), (0, -1), (0, 0), (0, 1), (1, -1), (1, 0), (1, 1)]

/-- Number of mines adjacent to `(x, y)`, embedding the generator sum in
`Board.calculate_adjacents`: offsets with `(dx or dy)` (self excluded)
whose target is in bounds and holds a mine. -/
def adjCount (b : Board) (x y : Int) : Nat :=
  deltas9.countP fun d =>
    decide (¬(d.1 = 0 ∧ d.2 = 0)) &&
      decide (inB b (x + d.1) (y + d.2)) &&
      (b.grid (x + d.1) (y + d.2)).mine

/-- One iteration of the `calculate_adjacents` loop body: skip a mine
cell (`continue`), otherwise store the adjacent-mine count computed from
the current grid. -/
def calcStep (acc : Board) (p : Int × Int) : Board :=
  if (acc.grid p.1 p.2).mine then acc
  else acc.set p.1 p.2 { acc.grid p.1 p.2 with adjacent := adjCount acc p.1 p.2 }

/-- Embedding of `Board.calculate_adjacents`: the loop body `calcStep`
applied to every cell in source order. -/
def Board.calculate_adjacents (b : Board) : Board :=
  (coordList b.width b.height).foldl calcStep b

/-- Set the `revealed` flag of one cell (models `cell.revealed = v`). -/
def Board.setRevealedTo (b : Board) (x y : Int) (v : Bool) : Board :=
  b.set x y { b.grid x y with revealed := v }

/-- Embedding of `Board.reveal` with explicit fuel for the recursion.
Source:
```
if cell.revealed or Config.MARKS[cell.mark] != '＃': return
cell.revealed = True
if cell.adjacent == 0 and not cell.mine:
    for dx in range(-1, 2):
        for dy in range(-1, 2):
            if 0 <= nx < width and 0 <= ny < height: self.reveal(nx, ny)
```
`Config.MARKS[cell.mark] != '＃'` is `cell.mark ≠ 0`. -/
def revealFuel : Nat → Board → Int → Int → Board
  | 0, b, _, _ => b
  | fuel + 1, b, x, y =>
    if (b.grid x y).revealed = true ∨ (b.grid x y).mark ≠ 0 then b
    else
      let b1 := b.setRevealedTo x y true
      if (b.grid x y).adjacent = 0 ∧ (b.grid x y).mine = false then
        deltas9.foldl
          (fun acc d =>
            if inB acc (x + d.1) (y + d.2) then revealFuel fuel acc (x + d.1) (y + d.2)
            else acc)
          b1
      else b1

/-- `Board.reveal`; fuel `width*height + 1` is sufficient
(see `revealFuel_stable`). -/
def Board.reveal (b : Board) (x y : Int) : Board :=
  revealFuel (b.width * b.height + 1) b x y

/-- Embedding of `Board.toggle_mark`:
`if not cell.revealed: cell.mark = (cell.mark + 1) % 3`. -/
def Board.toggle_mark (b : Board) (x y : Int) : Board :=
  if (b.grid x y).revealed = true then b
  else b.set x y { b.grid x y with mark := ((b.grid x y).mark + 1) % 3 }

/-- Embedding of `Board.all_clear`:
`all(cell.revealed or cell.mine for row in self.grid for cell in row)`. -/
def Board.all_clear (b : Board) : Bool :=
  (coordList b.width b.height).all fun p =>
    (b.grid p.1 p.2).revealed || (b.grid p.1 p.2).mine

/-- Set the `mine` flag of one cell (models `cell.mine = True`). -/
def Board.setMine (b : Board) (x y : Int) : Board :=
  b.set x y { b.grid x y with mine := true }

/-- Number of in-bounds cells carrying a mine. -/
def mineCount (b : Board) : Nat :=
  (coordList b.width b.height).countP fun p => (b.grid p.1 p.2).mine

/-- Number of in-bounds cells not yet revealed (the termination measure
of the flood fill). -/
def unrevealedCount (b : Board) : Nat :=
  (coordList b.width b.height).countP fun p => !(b.grid p.1 p.2).revealed

/-- Embedding of `Board.place_mines`.  `stream` models the successive
`(random.randint(0, w-1), random.randint(0, h-1))` picks, `k` is the
index of the next pick, `r` the number of mines still to place
(`self.mines - placed`).  The `while placed < self.mines` loop retries
until a pick lands on a cell with `not cell.mine`; `fuel` bounds the
number of picks consumed, `none` meaning the fuel was exhausted. -/
def placeMinesAux (stream : Nat → Int × Int) :
    Nat → Nat → Board → Nat → Option Board
  | _, _, b, 0 => some b
  | 0, _, _, _ + 1 => none
  | fuel + 1, k, b, r + 1 =>
    let p := stream k
    if (b.grid p.1 p.2).mine then placeMinesAux stream fuel (k + 1) b (r + 1)
    else placeMinesAux stream fuel (k + 1) (b.setMine p.1 p.2) r

/-! ### The nyankosweeper game loop (`class Game`) -/

/-- Embedding of `class GameState` (plus the `Game` wiring): board,
cursor, and the `game_over` flag. -/
structure GState where
  board : Board
  cx : Int
  cy : Int
  gameOver : Bool

/-- Embedding of `Game.reveal_all(show_mines=True)`: every non-mine cell
is revealed; a mine cell is revealed unless its mark is the flag (1). -/
def Board.reveal_all_show (b : Board) : Board :=
  (coordList b.width b.height).foldl
    (fun acc p =>
      if (acc.grid p.1 p.2).mine then
        if (acc.grid p.1 p.2).mark ≠ 1 then acc.setRevealedTo p.1 p.2 true else acc
      else acc.setRevealedTo p.1 p.2 true)
    b

/-- Embedding of `Game.handle_win` (without the drawing): every mine cell
gets `mark = 1, revealed = False`; every other cell gets `revealed = True`. -/
def Board.handleWin (b : Board) : Board :=
  (coordList b.width b.height).foldl
    (fun acc p =>
      if (acc.grid p.1 p.2).mine then
        acc.set p.1 p.2 { acc.grid p.1 p.2 with mark := 1, revealed := false }
      else acc.setRevealedTo p.1 p.2 true)
    b

/-- Embedding of `Game.handle_reveal`.  On a mine: set `game_over`,
bulk-reveal with `show_mines=True`, then `getkey()` consumes one input
token (`none` when no input remains, i.e. the program blocks).
Otherwise: `Board.reveal` at the cursor. -/
def handleReveal (g : GState) (inputs : List Char) :
    Option (GState × List Char) :=
  if (g.board.grid g.cx g.cy).mine then
    match inputs with
    | [] => none
    | _ :: rest =>
      some ({ g with gameOver := true, board := g.board.reveal_all_show }, rest)
  else some ({ g with board := g.board.reveal g.cx g.cy }, inputs)

/-- The movement table `Config.KEY_BINDINGS` / `Config.DIRECTIONS`
restricted to single-character keys (the named `KEY_LEFT` … tokens map
to the same four directions). -/
def moveDelta (c : Char) : Option (Int × Int) :=
  if c = '4' ∨ c = 'h' then some (-1, 0)
  else if c = '6' ∨ c = 'l' then some (1, 0)
  else if c = '8' ∨ c = 'k' then some (0, -1)
  else if c = '2' ∨ c = 'j' then some (0, 1)
  else none

/-- Embedding of `Game.handle_key`: returns the new state, the continue
flag (`False` exactly for `'q'`), and the input remaining after any
`getkey()` performed inside `handle_reveal`. -/
def handleKey (g : GState) (key : Char) (rest : List Char) :
    Option (GState × Bool × List Char) :=
  match moveDelta key with
  | some d =>
    some ({ g with
              cx := max 0 (min ((g.board.width : Int) - 1) (g.cx + d.1)),
              cy := max 0 (min ((g.board.height : Int) - 1) (g.cy + d.2)) },
          true, rest)
  | none =>
    if key = 'z' ∨ key = 'm' then
      some ({ g with board := g.board.toggle_mark g.cx g.cy }, true, rest)
    else if key = ' ' then
      (handleReveal g rest).map fun p => (p.1, true, p.2)
    else if key = 'q' then some (g, false, rest)
    else some (g, true, rest)

/-- Embedding of the `while True` loop of `Game.run`, fuelled by the
length of the remaining input (every iteration consumes at least one
token).  Win check first — skipped once `game_over` is set (the
"修正済" line of the source) — then one key is read and dispatched;
`handle_key` returning `False` ends the loop with result `1`,
`handle_win` ends it with result `0`.  `none` models blocking forever
on `getkey()`. -/
def gameRunFuel : Nat → GState → List Char → Option (Int × GState)
  | 0, _, _ => none
  | fuel + 1, g, inputs =>
    if g.gameOver = false ∧ g.board.all_clear = true then
      match inputs with
      | [] => none
      | _ :: _ => some (0, { g with board := g.board.handleWin })
    else
      match inputs with
      | [] => none
      | k :: rest =>
        match handleKey g k rest with
        | none => none
        | some (g', cont, rest') =>
          if cont then gameRunFuel fuel g' rest' else some (1, g')

/-- `Game.run` on a finite input list. -/
def gameRun (g : GState) (inputs : List Char) : Option (Int × GState) :=
  gameRunFuel (inputs.length + 1) g inputs

/-- Embedding of nyankosweeper's `run(stdscr)` / `main()`: `game.run()`
is called and its return value is **discarded** (`run` returns `None`,
`curses.wrapper` and `main` propagate nothing), after which the process
finishes normally, i.e. with exit status 0.  `none` models a run that
blocks on input. -/
def processExit (g : GState) (inputs : List Char) : Option Int :=
  (gameRun g inputs).map fun _ => 0

/-- Embedding of `get_mine_count()` applied to a numeric argument
(`sys.argv[1]` already parsed): `count > 300` prints and exits with
status 1 (`none`); otherwise the count is returned; with no argument the
default 56 is used. -/
def getMineCount (arg : Option Int) : Option Int :=
  match arg with
  | some n => if n > 300 then none else some n
  | none => some 56

end Nyanko

namespace MS

/-- A `vvram` entry of minesweeper.py: either the mine marker `'*'` or an
integer (0 before `calccell`, the adjacent count after). -/
inductive VCell where
  | mine : VCell
  | num : Nat → VCell
deriving DecidableEq, Repr

/-- The global state of minesweeper.py: the sizes, the `mines` argument,
the value grid `vvram` and the display mask `mask` (entries `'#'`
hidden, `'@'` flag, `'?'` question, `' '` revealed).  The source fixes
`xsize = 40, ysize = 23`; the embedding keeps them as fields. -/
structure MState where
  xsize : Nat
  ysize : Nat
  mines : Int
  vvram : Int → Int → VCell
  mask : Int → Int → Char

/-- In-bounds predicate, mirroring
`x+dx >= 0 and y+dy >= 0 and x+dx < xsize and y+dy < ysize`. -/
def inBM (s : MState) (x y : Int) : Prop :=
  0 ≤ x ∧ x < (s.xsize : Int) ∧ 0 ≤ y ∧ y < (s.ysize : Int)

instance (s : MState) (x y : Int) : Decidable (inBM s x y) := by
  unfold inBM; infer_instance

/-- Write one `vvram` entry. -/
def MState.setVv (s : MState) (x y : Int) (v : VCell) : MState :=
  { s with vvram := fun a b => if a = x ∧ b = y then v else s.vvram a b }

/-- Write one `mask` entry. -/
def MState.setMask (s : MState) (x y : Int) (c : Char) : MState :=
  { s with mask := fun a b => if a = x ∧ b = y then c else s.mask a b }

/-- Embedding of the count in `calccell`: the nested
`for dx in range(-1,2): for dy in range(-1,2)` loops (self included, as
in the source) over in-bounds neighbours holding `'*'`. -/
def vvCount9 (s : MState) (x y : Int) : Nat :=
  Nyanko.deltas9.countP fun d =>
    decide (inBM s (x + d.1) (y + d.2)) &&
      (s.vvram (x + d.1) (y + d.2) == VCell.mine)

/-- The eight proper `(dx, dy)` offsets (the `(0,0)` of `deltas9`
removed), in source order. -/
def deltas8 : List (Int × Int) :=
  [(-1, -1), (-1, 0), (-1, 1), (0, -1), (0, 1), (1, -1), (1, 0), (1, 1)]

/-- The number of mines among the proper in-bounds 8-neighbours of
`(x, y)` — the count named by the specification. -/
def vvCount8 (s : MState) (x y : Int) : Nat :=
  deltas8.countP fun d =>
    decide (inBM s (x + d.1) (y + d.2)) &&
      (s.vvram (x + d.1) (y + d.2) == VCell.mine)

/-- Embedding of `calccell(x, y)`: only acts when `vvram[x][y] == 0`, in
which case the cell receives the neighbour count computed from the
current grid. -/
def calccell (s : MState) (x y : Int) : MState :=
  if s.vvram x y = VCell.num 0 then s.setVv x y (VCell.num (vvCount9 s x y)) else s

/-- Embedding of `calcfield()`: `calccell` on every cell in source order. -/
def calcfield (s : MState) : MState :=
  (Nyanko.coordList s.xsize s.ysize).foldl (fun acc p => calccell acc p.1 p.2) s

/-- Decidable bounded form of "every in-bounds non-mine cell still holds
0" — the state `putmines` leaves `vvram` in, before `calcfield` runs. -/
def vvFresh (s : MState) : Bool :=
  (Nyanko.coordList s.xsize s.ysize).all fun p =>
    (s.vvram p.1 p.2 == VCell.mine) || (s.vvram p.1 p.2 == VCell.num 0)

/-- Embedding of minesweeper.py's recursive `reveal` with explicit fuel:
```
if vvram[x][y]!=0 and mask[x][y]!=' ': mask[x][y]=' '; return
if vvram[x][y]==0 and mask[x][y]!=' ':
    mask[x][y]=' '
    for dx ... for dy ...: if in bounds: reveal(x+dx, y+dy)
```
Note there is **no** check of the mark: `'#'`, `'@'` and `'?'` are all
overwritten by `' '`. -/
def revealFuel : Nat → MState → Int → Int → MState
  | 0, s, _, _ => s
  | fuel + 1, s, x, y =>
    if s.vvram x y ≠ VCell.num 0 ∧ s.mask x y ≠ ' ' then s.setMask x y ' '
    else if s.vvram x y = VCell.num 0 ∧ s.mask x y ≠ ' ' then
      Nyanko.deltas9.foldl
        (fun acc d =>
          if inBM acc (x + d.1) (y + d.2) then revealFuel fuel acc (x + d.1) (y + d.2)
          else acc)
        (s.setMask x y ' ')
    else s

/-- minesweeper.py's `reveal`; fuel `xsize*ysize + 1` is sufficient. -/
def reveal (s : MState) (x y : Int) : MState :=
  revealFuel (s.xsize * s.ysize + 1) s x y

/-- Embedding of `putmines(n)`; same structure as
`Nyanko.placeMinesAux`, the free-cell test being `vvram[x][y] == 0`. -/
def putminesAux (stream : Nat → Int × Int) :
    Nat → Nat → MState → Nat → Option MState
  | _, _, s, 0 => some s
  | 0, _, _, _ + 1 => none
  | fuel + 1, k, s, r + 1 =>
    let p := stream k
    if s.vvram p.1 p.2 = VCell.num 0 then
      putminesAux stream fuel (k + 1) (s.setVv p.1 p.2 VCell.mine) r
    else putminesAux stream fuel (k + 1) s (r + 1)

/-- Number of in-bounds `vvram` cells holding the mine marker `'*'`. -/
def mineCountM (s : MState) : Nat :=
  (Nyanko.coordList s.xsize s.ysize).countP fun p => s.vvram p.1 p.2 == VCell.mine

/-- Embedding of `endcheck()`: the number of cells whose mask is `'#'`
or `'@'` is compared with the `mines` argument. -/
def maskedCount (s : MState) : Nat :=
  (Nyanko.coordList s.xsize s.ysize).countP fun p =>
    s.mask p.1 p.2 == '#' || s.mask p.1 p.2 == '@'

/-- `endcheck()` itself: `c == mines`. -/
def endcheck (s : MState) : Bool :=
  (maskedCount s : Int) == s.mines

/-- The predicate named by the specification ("every cell with
`is_mine=false` has `revealed=true`"), written from the spec's words for
comparison with `endcheck`; in minesweeper.py "revealed" is
`mask[x][y] == ' '`. -/
def specNonMineRevealed (s : MState) : Bool :=
  (Nyanko.coordList s.xsize s.ysize).all fun p =>
    s.vvram p.1 p.2 == VCell.mine || s.mask p.1 p.2 == ' '

/-- The mark cycle of `mainloop`'s `'z'` branch:
`aca[(aca.index(mask[x][y])+1)%3]` with `aca = "#@?"`. -/
def aca : List Char := ['#', '@', '?']

/-- `aca[(aca.index(c)+1) % 3]`. -/
def acaCycle (c : Char) : Char :=
  aca.getD ((aca.indexOf c + 1) % 3) ' '

/-- Embedding of `mainloop()` on a finite input list, carrying the local
cursor `(x, y)`.  Each iteration: `endcheck()` first (a win consumes one
more key and returns 0); otherwise one key is read and dispatched:
movement (`x=x-(1 if x!=0 else 0)` style clamping), `'z'` mark cycling
(guarded by `mask != ' '`), `' '` reveal — a mine ends the game with
result `-1` after one further `getkey()`, the state untouched — and
`'q'` returns 1.  `none` models blocking on `getkey()`. -/
def mainloop : MState → Int → Int → List Char → Option (Int × MState)
  | _, _, _, [] => none
  | s, x, y, c :: rest =>
    if endcheck s then some (0, s)
    else if c = '4' then mainloop s (if x ≠ 0 then x - 1 else x) y rest
    else if c = '6' then mainloop s (if x ≠ (s.xsize : Int) - 1 then x + 1 else x) y rest
    else if c = '8' then mainloop s x (if y ≠ 0 then y - 1 else y) rest
    else if c = '2' then mainloop s x (if y ≠ (s.ysize : Int) - 1 then y + 1 else y) rest
    else if c = 'z' ∧ s.mask x y ≠ ' ' then
      mainloop (s.setMask x y (acaCycle (s.mask x y))) x y rest
    else if c = ' ' then
      if s.vvram x y = VCell.mine then
        match rest with
        | [] => none
        | _ :: _ => some (-1, s)
      else mainloop (reveal s x y) x y rest
    else if c = 'q' then some (1, s)
    else mainloop s x y rest

/-- Embedding of `game()` and the end of the script: `mainloop()` is
called, its return value is **discarded** (`game` ends in a bare
`return`), `curses.endwin()` runs and the script falls off the end, so
the process exits with status 0 whatever the game result was. -/
def processExit (s : MState) (x y : Int) (inputs : List Char) : Option Int :=
  (mainloop s x y inputs).map fun _ => 0

/-- Embedding of the argument check at the top of minesweeper.py
(applied to an already-parsed numeric `sys.argv[1]`): `mines > 300`
prints and exits with status 1 (`none`); any other value — including a
negative one — is accepted; with no argument the default is 60. -/
def checkMines (arg : Option Int) : Option Int :=
  match arg with
  | some n => if n > 300 then none else some n
  | none => some 60

end MS

/-! ## Derived predicates used by the statements -/

namespace Nyanko

/-- Two boards with the same dimensions whose cells agree on every field
except possibly `revealed` (the only field the flood fill writes). -/
def sameStatic (b c : Board) : Prop :=
  b.width = c.width ∧ b.height = c.height ∧
    ∀ x y : Int,
      (c.grid x y).mine = (b.grid x y).mine
        ∧ (c.grid x y).adjacent = (b.grid x y).adjacent
        ∧ (c.grid x y).mark = (b.grid x y).mark

/-- Decidable bounded form of "no cell is revealed or marked yet"
(the state of a freshly constructed board). -/
def freshB (b : Board) : Bool :=
  (coordList b.width b.height).all fun p =>
    !(b.grid p.1 p.2).revealed && ((b.grid p.1 p.2).mark == 0)

/-- Decidable bounded form of "every non-mine cell stores the correct
adjacent-mine count" (what `Board.calculate_adjacents` establishes). -/
def adjOKB (b : Board) : Bool :=
  (coordList b.width b.height).all fun p =>
    (b.grid p.1 p.2).mine || ((b.grid p.1 p.2).adjacent == adjCount b p.1 p.2)

/-- A zero cell: in bounds, not a mine, adjacent count 0.  The flood
fill recurses exactly from such cells. -/
def isZero (b : Board) (x y : Int) : Prop :=
  inB b x y ∧ (b.grid x y).mine = false ∧ (b.grid x y).adjacent = 0

instance (b : Board) (x y : Int) : Decidable (isZero b x y) := by
  unfold isZero; infer_instance

/-- 8-neighbourhood relation (the cell itself included), phrased with
the offset list the source iterates. -/
def isNbr (x y nx ny : Int) : Prop :=
  ∃ d ∈ deltas9, nx = x + d.1 ∧ ny = y + d.2

instance (x y nx ny : Int) : Decidable (isNbr x y nx ny) := by
  unfold isNbr; infer_instance

/-- The set of cells a flood fill started at `(x0, y0)` should reach:
the start itself, plus every in-bounds neighbour of a reachable zero
cell.  When the start is a zero cell this is exactly its connected
zero-adjacency region together with the numbered cells bordering it. -/
inductive zreach (b : Board) (x0 y0 : Int) : Int → Int → Prop
  | base : zreach b x0 y0 x0 y0
  | step {x y nx ny : Int} : zreach b x0 y0 x y → isZero b x y →
      isNbr x y nx ny → inB b nx ny → zreach b x0 y0 nx ny

end Nyanko

namespace MS

/-- Two minesweeper.py states with the same dimensions and the same
`vvram` (the flood fill writes only `mask`). -/
def sameVv (s t : MState) : Prop :=
  s.xsize = t.xsize ∧ s.ysize = t.ysize ∧
    ∀ x y : Int, t.vvram x y = s.vvram x y

/-- Number of in-bounds cells whose mask is not `' '` — the cells not
yet revealed, the termination measure of minesweeper.py's flood fill. -/
def hiddenCount (s : MState) : Nat :=
  (Nyanko.coordList s.xsize s.ysize).countP fun p => !(s.mask p.1 p.2 == ' ')

/-- Decidable bounded form of "no cell is revealed yet" (every in-bounds
mask differs from `' '`; marks are allowed — minesweeper.py's reveal
does not check them). -/
def noneRevealedB (s : MState) : Bool :=
  (Nyanko.coordList s.xsize s.ysize).all fun p => !(s.mask p.1 p.2 == ' ')

/-- Decidable bounded form of "every non-mine cell stores the correct
neighbour count" (what `calcfield` establishes, see `C4_confirmed`). -/
def msAdjOKB (s : MState) : Bool :=
  (Nyanko.coordList s.xsize s.ysize).all fun p =>
    (s.vvram p.1 p.2 == VCell.mine)
      || (s.vvram p.1 p.2 == VCell.num (vvCount8 s p.1 p.2))

/-- A zero cell of minesweeper.py: in bounds with `vvram == 0`
(necessarily not a mine).  The flood fill recurses exactly from these. -/
def isZeroM (s : MState) (x y : Int) : Prop :=
  inBM s x y ∧ s.vvram x y = VCell.num 0

instance (s : MState) (x y : Int) : Decidable (isZeroM s x y) := by
  unfold isZeroM; infer_instance

/-- The cells minesweeper.py's flood fill started at `(x0, y0)` should
reach: the start itself, plus every in-bounds neighbour of a reachable
zero cell (the connected zero region plus its numbered boundary). -/
inductive mzreach (s : MState) (x0 y0 : Int) : Int → Int → Prop
  | base : mzreach s x0 y0 x0 y0
  | step {x y nx ny : Int} : mzreach s x0 y0 x y → isZeroM s x y →
      Nyanko.isNbr x y nx ny → inBM s nx ny → mzreach s x0 y0 nx ny

end MS

/-! ## Concrete example states used by counterexamples and witnesses -/

namespace Ex

open Nyanko MS

/-- A 2×1 minesweeper.py state: a mine at `(0,0)` marked `'?'`, the only
non-mine cell `(1,0)` revealed (`mask = ' '`), `mines = 1`. -/
def qmark : MState :=
  { xsize := 2, ysize := 1, mines := 1,
    vvram := fun x _ => if x = 0 then VCell.mine else VCell.num 1,
    mask := fun x _ => if x = 0 then '?' else ' ' }

/-- A 2×1 minesweeper.py state: non-mine `(0,0)` flagged `'@'`, mine at
`(1,0)` hidden; `mines = 5` keeps `endcheck` false throughout. -/
def flagged : MState :=
  { xsize := 2, ysize := 1, mines := 5,
    vvram := fun x _ => if x = 0 then VCell.num 1 else VCell.mine,
    mask := fun x _ => if x = 0 then '@' else '#' }

/-- A 2×1 minesweeper.py state about to lose: mine at `(0,0)` under the
cursor, everything hidden, `mines = 1` (so `endcheck` is false: two
masked cells). -/
def msLose : MState :=
  { xsize := 2, ysize := 1, mines := 1,
    vvram := fun x _ => if x = 0 then VCell.mine else VCell.num 1,
    mask := fun _ _ => '#' }

/-- A 1×1 minesweeper.py state that has already won by `endcheck`'s
criterion: one hidden mine, `mines = 1`. -/
def msWin : MState :=
  { xsize := 1, ysize := 1, mines := 1,
    vvram := fun _ _ => VCell.mine,
    mask := fun _ _ => '#' }

/-- A 2×1 nyankosweeper board: mine at `(0,0)`, safe numbered cell at
`(1,0)`, nothing revealed or marked. -/
def nyLossBoard : Board :=
  { width := 2, height := 1, mines := 1,
    grid := fun x _ =>
      if x = 0 then { Cell.init with mine := true }
      else { Cell.init with adjacent := 1 } }

/-- The game state at the start of a nyankosweeper run on
`nyLossBoard`, cursor on the mine. -/
def nyLoss : GState := { board := nyLossBoard, cx := 0, cy := 0, gameOver := false }

/-- A 1×1 nyankosweeper game state that already satisfies `all_clear`
(its only cell is a revealed non-mine). -/
def nyWin : GState :=
  { board := { width := 1, height := 1, mines := 0,
               grid := fun _ _ => { Cell.init with revealed := true } },
    cx := 0, cy := 0, gameOver := false }

/-- A 2×2 mine-free nyankosweeper board, fresh (nothing revealed or
marked, all adjacent counts 0). -/
def fresh22 : Board :=
  { width := 2, height := 2, mines := 0, grid := fun _ _ => Cell.init }

/-- A 2×1 mine-free nyankosweeper board whose second cell is flagged. -/
def flagged21 : Board :=
  { width := 2, height := 1, mines := 0,
    grid := fun x _ => if x = 1 then { Cell.init with mark := 1 } else Cell.init }

/-- A 2×1 nyankosweeper board with a mine at `(0,0)` and the correct
adjacent count 1 at `(1,0)`. -/
def mined21 : Board := nyLossBoard

/-- A 2×2 minesweeper.py state fresh out of `putmines`: one mine at
`(0,0)`, every other cell 0, everything hidden. -/
def ms22 : MState :=
  { xsize := 2, ysize := 2, mines := 1,
    vvram := fun x y => if x = 0 ∧ y = 0 then VCell.mine else VCell.num 0,
    mask := fun _ _ => '#' }

/-- A 2×2 mine-free minesweeper.py state after `calcfield` (every cell
0), everything hidden. -/
def msAll0 : MState :=
  { xsize := 2, ysize := 2, mines := 0,
    vvram := fun _ _ => VCell.num 0,
    mask := fun _ _ => '#' }

/-- A 2×1 minesweeper.py state before `putmines`: all cells 0. -/
def msFresh21 : MState :=
  { xsize := 2, ysize := 1, mines := 1,
    vvram := fun _ _ => VCell.num 0,
    mask := fun _ _ => '#' }

/-- A 2×1 nyankosweeper board with a mine at `(0,0)` whose adjacent
counts have *not* been computed (both still 0): cell `(1,0)` wrongly
looks like a zero cell next to a mine. -/
def badAdj21 : Board :=
  { width := 2, height := 1, mines := 1,
    grid := fun x _ => if x = 0 then { Cell.init with mine := true } else Cell.init }

end Ex

/-! ## Infrastructure lemmas -/

namespace Nyanko

theorem mem_coordList {w h : Nat} {x y : Int} :
    (x, y) ∈ coordList w h ↔ 0 ≤ x ∧ x < (w : Int) ∧ 0 ≤ y ∧ y < (h : Int) := by
  simp only [coordList, List.mem_flatMap, List.mem_map, List.mem_range]
  constructor
  · rintro ⟨a, ha, b, hb, hab⟩
    injection hab with hx hy
    subst hx; subst hy
    refine ⟨?_, ?_, ?_, ?_⟩ <;> omega
  · rintro ⟨hx0, hxw, hy0, hyh⟩
    refine ⟨x.toNat, by omega, y.toNat, by omega, ?_⟩
    rw [Int.toNat_of_nonneg hx0, Int.toNat_of_nonneg hy0]

theorem mem_coordList_iff_inB {b : Board} {x y : Int} :
    (x, y) ∈ coordList b.width b.height ↔ inB b x y := by
  rw [mem_coordList]; rfl

theorem length_coordList (w h : Nat) : (coordList w h).length = w * h := by
  simp [coordList, List.length_flatMap, Function.comp_def, List.map_const']

theorem nodup_coordList (w h : Nat) : (coordList w h).Nodup := by
  rw [coordList, List.nodup_flatMap]
  constructor
  · intro x _
    refine (List.nodup_range h).map ?_
    intro a b hab
    injection hab with _ hy
    exact_mod_cast hy
  · refine (List.nodup_range w).pairwise_of_forall_ne ?_
    intro a b _ _ hne
    simp only [Function.onFun, List.disjoint_left, List.mem_map, List.mem_range]
    rintro p ⟨c, _, rfl⟩ ⟨d, _, hd⟩
    injection hd with ha _
    exact hne (by exact_mod_cast ha.symm)

@[simp] theorem set_width (b : Board) (x y : Int) (c : Cell) :
    (b.set x y c).width = b.width := rfl

@[simp] theorem set_height (b : Board) (x y : Int) (c : Cell) :
    (b.set x y c).height = b.height := rfl

theorem set_grid (b : Board) (x y : Int) (c : Cell) (a b' : Int) :
    (b.set x y c).grid a b' = if a = x ∧ b' = y then c else b.grid a b' := rfl

theorem set_grid_self (b : Board) (x y : Int) (c : Cell) :
    (b.set x y c).grid x y = c := by
  simp [set_grid]

theorem set_grid_other (b : Board) (x y : Int) (c : Cell) {a b' : Int}
    (h : ¬(a = x ∧ b' = y)) : (b.set x y c).grid a b' = b.grid a b' := by
  simp [set_grid, h]

/-- A generic induction principle for `List.foldl`: any invariant
preserved by the step function holds of the result. -/
theorem foldl_invariant {α β : Type} {P : α → Prop} (step : α → β → α)
    (hstep : ∀ acc d, P acc → P (step acc d)) :
    ∀ (l : List β) (acc : α), P acc → P (l.foldl step acc)
  | [], _, h => h
  | d :: l, acc, h => foldl_invariant step hstep l (step acc d) (hstep acc d h)

/-- Pointwise-equal predicates give equal `List.all` results. -/
theorem list_all_congr {α : Type} {p q : α → Bool} :
    ∀ {l : List α}, (∀ a ∈ l, p a = q a) → l.all p = l.all q
  | [], _ => rfl
  | a :: l, h => by
    simp only [List.all_cons]
    rw [h a (List.mem_cons_self a l),
      list_all_congr fun x hx => h x (List.mem_cons_of_mem _ hx)]

/-- `countP` changes by exactly one when exactly one element of a
duplicate-free list flips from satisfying the predicate to refuting it. -/
theorem countP_flip_one {α : Type} [DecidableEq α] {p q : α → Bool} :
    ∀ {l : List α}, l.Nodup → ∀ {e : α}, e ∈ l → p e = true → q e = false →
      (∀ a ∈ l, a ≠ e → q a = p a) → l.countP q + 1 = l.countP p
  | [], _, _, he, _, _, _ => absurd he (List.not_mem_nil _)
  | a :: l, hnd, e, he, hpe, hqe, hagree => by
    rcases List.mem_cons.mp he with rfl | hel
    · have hnotin : e ∉ l := (List.nodup_cons.mp hnd).1
      have hcong : l.countP q = l.countP p := by
        apply List.countP_congr
        intro a ha
        have hae : a ≠ e := fun hh => hnotin (hh ▸ ha)
        rw [hagree a (List.mem_cons_of_mem _ ha) hae]
      rw [List.countP_cons, List.countP_cons, hpe, hqe, hcong]
      simp
    · have hae : a ≠ e := fun h => (List.nodup_cons.mp hnd).1 (h ▸ hel)
      have hqa : q a = p a := hagree a (List.mem_cons_self a l) hae
      have ih := countP_flip_one (List.nodup_cons.mp hnd).2 hel hpe hqe
        (fun x hx hxe => hagree x (List.mem_cons_of_mem _ hx) hxe)
      rw [List.countP_cons, List.countP_cons, hqa]
      omega

end Nyanko

/-! ## Claims -/

open Nyanko MS in
/-- C1 counterexample.  The claim states that the win predicate — in
minesweeper.py this is `endcheck()` — is true iff every non-mine cell is
revealed, unaffected by the mine cells.  On `Ex.qmark` every non-mine
cell is revealed (the spec-side predicate is true) yet `endcheck` is
false, because the mine marked `'?'` is not counted among the `'#'`/`'@'`
cells and the count 0 differs from `mines = 1`. -/
theorem C1_counterexample :
    MS.specNonMineRevealed Ex.qmark = true ∧ MS.endcheck Ex.qmark = false := by
  constructor <;> rfl

open Nyanko MS in
/-- C1 amended.  (1) nyankosweeper's `all_clear` is true iff every
in-bounds non-mine cell is revealed; (2) the revealed status of a mine
cell never affects `all_clear`; (3) minesweeper.py's `endcheck` is
instead true iff the number of cells masked `'#'` or `'@'` equals the
`mines` argument — a different predicate (see the counterexample). -/
theorem C1_amended :
    (∀ b : Nyanko.Board, b.all_clear = true ↔
      ∀ x y : Int, inB b x y → (b.grid x y).mine = false → (b.grid x y).revealed = true)
    ∧ (∀ (b : Nyanko.Board) (x y : Int) (v : Bool), (b.grid x y).mine = true →
        (b.setRevealedTo x y v).all_clear = b.all_clear)
    ∧ (∀ s : MS.MState, MS.endcheck s = true ↔ (MS.maskedCount s : Int) = s.mines) := by
  refine ⟨?_, ?_, ?_⟩
  · intro b
    rw [Board.all_clear, List.all_eq_true]
    constructor
    · intro h x y hin hm
      have := h (x, y) (mem_coordList_iff_inB.mpr hin)
      simpa [hm] using this
    · rintro h ⟨x, y⟩ hp
      have hin := mem_coordList_iff_inB.mp hp
      by_cases hm : (b.grid x y).mine = true
      · simp [hm]
      · simp [h x y hin (by simpa using hm)]
  · intro b x y v hm
    have : ∀ p ∈ coordList b.width b.height,
        (((b.setRevealedTo x y v).grid p.1 p.2).revealed
          || ((b.setRevealedTo x y v).grid p.1 p.2).mine)
        = ((b.grid p.1 p.2).revealed || (b.grid p.1 p.2).mine) := by
      rintro ⟨a, c⟩ _
      by_cases hp : a = x ∧ c = y
      · obtain ⟨rfl, rfl⟩ := hp
        simp [Board.setRevealedTo, set_grid_self, hm]
      · simp [Board.setRevealedTo, set_grid_other _ _ _ _ hp]
    simp only [Board.all_clear]
    exact list_all_congr this
  · intro s
    simp [MS.endcheck]

open Nyanko MS in
/-- C1 witness: instantiating the mine-invariance part on `Ex.mined21`. -/
theorem C1_witness :
    (Ex.mined21.setRevealedTo 0 0 true).all_clear = Ex.mined21.all_clear :=
  C1_amended.2.1 Ex.mined21 0 0 true (by decide)

open Nyanko MS in
/-- C3 counterexample.  In minesweeper.py a `'@'`-flagged cell is *not*
protected: dispatching the reveal action (`' '`) on the flagged non-mine
cell `(0,0)` of `Ex.flagged` overwrites its mask with `' '`, i.e. the
cell becomes revealed while still flagged — the claimed no-op fails in
that implementation. -/
theorem C3_counterexample :
    Ex.flagged.mask 0 0 = '@' ∧
    ((MS.mainloop Ex.flagged 0 0 [' ', 'q']).map fun p => (p.1, p.2.mask 0 0))
      = some (1, ' ') := by
  constructor
  · rfl
  · decide

open Nyanko MS in
/-- C3 amended.  In nyankosweeper, `Board.reveal` on a cell that is
already revealed or carries any mark (flag or question) is a no-op, the
board is returned unchanged.  In minesweeper.py only the already-revealed
case (`mask == ' '`) is a no-op; marks do not block a direct reveal
(see the counterexample). -/
theorem C3_amended :
    (∀ (b : Nyanko.Board) (x y : Int),
      (b.grid x y).revealed = true ∨ (b.grid x y).mark ≠ 0 → b.reveal x y = b)
    ∧ (∀ (s : MS.MState) (x y : Int), s.mask x y = ' ' → MS.reveal s x y = s) := by
  constructor
  · intro b x y h
    rw [Board.reveal, Nyanko.revealFuel, if_pos h]
  · intro s x y h
    rw [MS.reveal, MS.revealFuel]
    simp [h]

open Nyanko MS in
/-- C3 witness: the no-op on the flagged cell `(1,0)` of `Ex.flagged21`. -/
theorem C3_witness : Ex.flagged21.reveal 1 0 = Ex.flagged21 :=
  C3_amended.1 Ex.flagged21 1 0 (Or.inr (by decide))

open Nyanko MS in
/-- C6 counterexample.  The claim says construction fails with an error
for every negative mine count; both argument checks accept `-5`
(the only rejection is `count > 300`), so the game proceeds with a
negative mine count and no error is raised. -/
theorem C6_counterexample :
    Nyanko.getMineCount (some (-5)) = some (-5)
    ∧ MS.checkMines (some (-5)) = some (-5) := by
  constructor <;> rfl

open Nyanko MS in
/-- C6 amended.  Construction fails (error printed, exit status 1) iff
the numeric argument exceeds 300; any accepted count — including any
negative one — is passed through unchanged, and is necessarily below
`width*height` (`40*22 = 880` resp. `40*23 = 920`), so the
`mine_count ≥ width*height` case indeed never constructs a board, while
negative counts are accepted without error. -/
theorem C6_amended :
    (∀ n : Int, Nyanko.getMineCount (some n) = none ↔ 300 < n)
    ∧ (∀ n m : Int, Nyanko.getMineCount (some n) = some m → m = n ∧ m < 40 * 22)
    ∧ (∀ n : Int, MS.checkMines (some n) = none ↔ 300 < n)
    ∧ (∀ n m : Int, MS.checkMines (some n) = some m → m = n ∧ m < 40 * 23) := by
  refine ⟨?_, ?_, ?_, ?_⟩
  · intro n
    by_cases h : 300 < n <;> simp [Nyanko.getMineCount, h]
  · intro n m h
    by_cases hn : 300 < n
    · simp [Nyanko.getMineCount, hn] at h
    · simp [Nyanko.getMineCount, hn] at h
      omega
  · intro n
    by_cases h : 300 < n <;> simp [MS.checkMines, h]
  · intro n m h
    by_cases hn : 300 < n
    · simp [MS.checkMines, hn] at h
    · simp [MS.checkMines, hn] at h
      omega

open Nyanko MS in
/-- C6 witness: the over-limit argument 301 is rejected. -/
theorem C6_witness : Nyanko.getMineCount (some 301) = none :=
  (C6_amended.1 301).mpr (by decide)

open Nyanko MS in
/-- C7 confirmed.  In nyankosweeper: toggling the mark of a revealed
cell leaves the board unchanged; on an unrevealed cell one toggle steps
the mark by `+1 mod 3` (so the cycle is strictly
None → Flag → Question → None) and three toggles restore the cell
exactly.  In minesweeper.py: the `'z'` branch cycles
`'#' → '@' → '?' → '#'`, and on a revealed cell (`mask == ' '`) the
guard makes the key a no-op (the state passed on is unchanged). -/
theorem C7_confirmed :
    (∀ (b : Nyanko.Board) (x y : Int),
      (b.grid x y).revealed = true → b.toggle_mark x y = b)
    ∧ (∀ (b : Nyanko.Board) (x y : Int), (b.grid x y).revealed = false →
        ((b.toggle_mark x y).grid x y).mark = ((b.grid x y).mark + 1) % 3
        ∧ ((b.grid x y).mark < 3 →
            (((b.toggle_mark x y).toggle_mark x y).toggle_mark x y).grid x y = b.grid x y))
    ∧ (MS.acaCycle '#' = '@' ∧ MS.acaCycle '@' = '?' ∧ MS.acaCycle '?' = '#')
    ∧ (∀ (s : MS.MState) (x y : Int) (rest : List Char),
        MS.endcheck s = false → s.mask x y = ' ' →
        MS.mainloop s x y ('z' :: rest) = MS.mainloop s x y rest) := by
  refine ⟨?_, ?_, by decide, ?_⟩
  · intro b x y h
    rw [Board.toggle_mark, if_pos h]
  · intro b x y hrev
    have h1 : b.toggle_mark x y
        = b.set x y { b.grid x y with mark := ((b.grid x y).mark + 1) % 3 } := by
      rw [Board.toggle_mark, if_neg (by simp [hrev])]
    have hg1 : (b.toggle_mark x y).grid x y
        = { b.grid x y with mark := ((b.grid x y).mark + 1) % 3 } := by
      rw [h1, set_grid_self]
    refine ⟨by rw [hg1], ?_⟩
    intro hmark
    have hrev1 : ((b.toggle_mark x y).grid x y).revealed = false := by
      rw [hg1]; exact hrev
    have h2 : (b.toggle_mark x y).toggle_mark x y
        = (b.toggle_mark x y).set x y
            { b.grid x y with mark := (((b.grid x y).mark + 1) % 3 + 1) % 3 } := by
      rw [Board.toggle_mark, if_neg (by simp [hrev1]), hg1]
    have hg2 : ((b.toggle_mark x y).toggle_mark x y).grid x y
        = { b.grid x y with mark := (((b.grid x y).mark + 1) % 3 + 1) % 3 } := by
      rw [h2, set_grid_self]
    have hrev2 : (((b.toggle_mark x y).toggle_mark x y).grid x y).revealed = false := by
      rw [hg2]; exact hrev
    have hg3 : ((((b.toggle_mark x y).toggle_mark x y).toggle_mark x y)).grid x y
        = { b.grid x y with
              mark := ((((b.grid x y).mark + 1) % 3 + 1) % 3 + 1) % 3 } := by
      rw [Board.toggle_mark, if_neg (by simp [hrev2]), hg2, set_grid_self]
    rw [hg3]
    have hm3 : ((((b.grid x y).mark + 1) % 3 + 1) % 3 + 1) % 3 = (b.grid x y).mark := by
      omega
    rw [hm3]
  · intro s x y rest hend hmask
    simp [MS.mainloop, hend, hmask]

open Nyanko MS in
/-- C7 witness: three toggles restore the (unmarked, unrevealed) cell
`(0,0)` of the fresh 2×2 board. -/
theorem C7_witness :
    (((Ex.fresh22.toggle_mark 0 0).toggle_mark 0 0).toggle_mark 0 0).grid 0 0
      = Ex.fresh22.grid 0 0 :=
  ((C7_confirmed.2.1 Ex.fresh22 0 0 (by decide)).2) (by decide)

open Nyanko MS in
/-- C9 evidence (code bug).  The in-game results distinguish the
outcomes — minesweeper.py's `mainloop` returns 0 on win, -1 on loss, 1
on quit, and nyankosweeper's `Game.run` returns 0 on win, 1 on quit —
but `game()` (resp. `run(stdscr)`/`main()`) discards that value and the
script simply falls off the end, so the process exit status is 0 for
win, loss and quit alike: win versus not-win is *not* distinguishable
from the exit code. -/
theorem C9_theorem :
    ((MS.mainloop Ex.msLose 0 0 [' ', 'x']).map fun p => p.1) = some (-1)
    ∧ MS.processExit Ex.msLose 0 0 [' ', 'x'] = some 0
    ∧ ((MS.mainloop Ex.msWin 0 0 ['x']).map fun p => p.1) = some 0
    ∧ MS.processExit Ex.msWin 0 0 ['x'] = some 0
    ∧ ((MS.mainloop Ex.msLose 0 0 ['q']).map fun p => p.1) = some 1
    ∧ MS.processExit Ex.msLose 0 0 ['q'] = some 0
    ∧ ((Nyanko.gameRun Ex.nyLoss ['q']).map fun p => p.1) = some 1
    ∧ Nyanko.processExit Ex.nyLoss ['q'] = some 0
    ∧ ((Nyanko.gameRun Ex.nyWin ['x']).map fun p => p.1) = some 0
    ∧ Nyanko.processExit Ex.nyWin ['x'] = some 0 := by
  refine ⟨?_, ?_, ?_, ?_, ?_, ?_, ?_, ?_, ?_, ?_⟩ <;> decide

open Nyanko MS in
/-- C10 counterexample.  In nyankosweeper the Lost state is *not*
terminal: starting from `Ex.nyLoss` (cursor on the mine) the run
`[' ', 'x', '6', 'q']` loses on `' '` (one key `'x'` is consumed by the
loss screen), after which the movement key `'6'` is still dispatched —
the cursor moves from 0 to 1 — and the game only ends at the explicit
`'q'`.  The claim says no further input token is dispatched as a move
after the single post-loss key press. -/
theorem C10_counterexample :
    Ex.nyLoss.cx = 0
    ∧ ((Nyanko.gameRun Ex.nyLoss [' ', 'x', '6', 'q']).map
        fun p => (p.1, p.2.cx, p.2.gameOver)) = some (1, 1, true) := by
  constructor
  · rfl
  · decide

open Nyanko MS in
/-- C10 amended.  In minesweeper.py the loss is terminal exactly as
claimed: when the space key reveals a mine (and `endcheck` is false so
the win branch is not taken), `mainloop` consumes exactly one further
key press and returns -1 with the state unchanged, regardless of any
input that follows — no further token is dispatched.  (nyankosweeper
instead keeps accepting and dispatching moves after the loss, only the
win check being disabled; see the counterexample.) -/
theorem C10_amended :
    ∀ (s : MS.MState) (x y : Int) (k : Char) (rest : List Char),
      MS.endcheck s = false → s.vvram x y = MS.VCell.mine →
      MS.mainloop s x y (' ' :: k :: rest) = some (-1, s) := by
  intro s x y k rest hend hmine
  simp [MS.mainloop, hend, hmine]

open Nyanko MS in
/-- C10 witness: the loss on `Ex.msLose` ends the loop after one more
key, ignoring the rest of the input. -/
theorem C10_witness :
    MS.mainloop Ex.msLose 0 0 [' ', 'x', '6', '6', 'q'] = some (-1, Ex.msLose) :=
  C10_amended Ex.msLose 0 0 'x' ['6', '6', 'q'] (by decide) (by decide)

/-! ## Adjacency computation (C4) -/

namespace Nyanko

theorem inB_congr {b c : Board} (hw : c.width = b.width) (hh : c.height = b.height)
    (x y : Int) : inB c x y ↔ inB b x y := by
  unfold inB
  rw [hw, hh]

theorem adjCount_congr {b c : Board} (hw : c.width = b.width) (hh : c.height = b.height)
    (hm : ∀ x y : Int, (c.grid x y).mine = (b.grid x y).mine) (x y : Int) :
    adjCount c x y = adjCount b x y := by
  unfold adjCount
  apply List.countP_congr
  intro d _
  rw [hm, decide_eq_decide.mpr (inB_congr hw hh _ _)]

@[simp] theorem calcStep_width (acc : Board) (p : Int × Int) :
    (calcStep acc p).width = acc.width := by
  unfold calcStep; split <;> rfl

@[simp] theorem calcStep_height (acc : Board) (p : Int × Int) :
    (calcStep acc p).height = acc.height := by
  unfold calcStep; split <;> rfl

theorem calcStep_static (acc : Board) (p : Int × Int) (x y : Int) :
    ((calcStep acc p).grid x y).mine = (acc.grid x y).mine
      ∧ ((calcStep acc p).grid x y).revealed = (acc.grid x y).revealed
      ∧ ((calcStep acc p).grid x y).mark = (acc.grid x y).mark := by
  unfold calcStep
  split
  · exact ⟨rfl, rfl, rfl⟩
  · by_cases hp : x = p.1 ∧ y = p.2
    · obtain ⟨rfl, rfl⟩ := hp
      rw [set_grid_self]
      exact ⟨rfl, rfl, rfl⟩
    · rw [set_grid_other _ _ _ _ hp]
      exact ⟨rfl, rfl, rfl⟩

theorem calcStep_untouched (acc : Board) (p : Int × Int) {x y : Int}
    (h : ¬(x = p.1 ∧ y = p.2)) : (calcStep acc p).grid x y = acc.grid x y := by
  unfold calcStep
  split
  · rfl
  · exact set_grid_other _ _ _ _ h

theorem calcfold_untouched :
    ∀ (L : List (Int × Int)) (acc : Board) {x y : Int},
      (∀ p ∈ L, ¬(x = p.1 ∧ y = p.2)) →
      ((L.foldl calcStep acc).grid x y) = acc.grid x y
  | [], _, _, _, _ => rfl
  | q :: L, acc, x, y, h => by
    rw [List.foldl_cons,
      calcfold_untouched L (calcStep acc q) fun p hp => h p (List.mem_cons_of_mem _ hp),
      calcStep_untouched acc q (h q (List.mem_cons_self _ _))]

theorem calcfold_correct (b : Board) :
    ∀ (L : List (Int × Int)) (acc : Board),
      acc.width = b.width → acc.height = b.height →
      (∀ x y : Int, (acc.grid x y).mine = (b.grid x y).mine) →
      ∀ p ∈ L, (b.grid p.1 p.2).mine = false →
        ((L.foldl calcStep acc).grid p.1 p.2).adjacent = adjCount b p.1 p.2
  | [], _, _, _, _, _, hp, _ => absurd hp (List.not_mem_nil _)
  | q :: L, acc, hw, hh, hm, p, hp, hpm => by
    rw [List.foldl_cons]
    have hw' : (calcStep acc q).width = b.width := by rw [calcStep_width, hw]
    have hh' : (calcStep acc q).height = b.height := by rw [calcStep_height, hh]
    have hm' : ∀ x y : Int, ((calcStep acc q).grid x y).mine = (b.grid x y).mine :=
      fun x y => by rw [(calcStep_static acc q x y).1, hm]
    by_cases hpL : p ∈ L
    · exact calcfold_correct b L (calcStep acc q) hw' hh' hm' p hpL hpm
    · have hpq : p = q := by
        rcases List.mem_cons.mp hp with h | h
        · exact h
        · exact absurd h hpL
      subst hpq
      have hne : ∀ r ∈ L, ¬(p.1 = r.1 ∧ p.2 = r.2) := by
        intro r hr hc
        exact hpL (by
          obtain ⟨h1, h2⟩ := hc
          have : p = r := Prod.ext h1 h2
          exact this ▸ hr)
      rw [calcfold_untouched L (calcStep acc p) hne]
      unfold calcStep
      rw [if_neg (by rw [hm]; simp [hpm])]
      rw [set_grid_self]
      exact adjCount_congr hw hh hm p.1 p.2

end Nyanko

namespace MS

theorem mem_coordList_iff_inBM {s : MState} {x y : Int} :
    (x, y) ∈ Nyanko.coordList s.xsize s.ysize ↔ inBM s x y := by
  rw [Nyanko.mem_coordList]; rfl

theorem inBM_congr {s t : MState} (hw : t.xsize = s.xsize) (hh : t.ysize = s.ysize)
    (x y : Int) : inBM t x y ↔ inBM s x y := by
  unfold inBM
  rw [hw, hh]

@[simp] theorem calccell_xsize (s : MState) (a c : Int) :
    (calccell s a c).xsize = s.xsize := by
  unfold calccell; split <;> rfl

@[simp] theorem calccell_ysize (s : MState) (a c : Int) :
    (calccell s a c).ysize = s.ysize := by
  unfold calccell; split <;> rfl

theorem setVv_self (s : MState) (x y : Int) (v : VCell) :
    (s.setVv x y v).vvram x y = v := by
  simp [MState.setVv]

theorem setVv_other (s : MState) (x y : Int) (v : VCell) {a c : Int}
    (h : ¬(a = x ∧ c = y)) : (s.setVv x y v).vvram a c = s.vvram a c := by
  simp [MState.setVv, h]

theorem calccell_mine_iff (s : MState) (a c x y : Int) :
    ((calccell s a c).vvram x y = VCell.mine ↔ s.vvram x y = VCell.mine) := by
  unfold calccell
  split
  next h0 =>
    by_cases hp : x = a ∧ y = c
    · obtain ⟨rfl, rfl⟩ := hp
      rw [setVv_self]
      constructor
      · intro hcontra
        exact absurd hcontra.symm (by simp)
      · intro hmv
        rw [hmv] at h0
        simp at h0
    · rw [setVv_other _ _ _ _ hp]
  next => exact Iff.rfl

theorem calccell_untouched (s : MState) (a c : Int) {x y : Int}
    (h : ¬(x = a ∧ y = c)) : (calccell s a c).vvram x y = s.vvram x y := by
  unfold calccell
  split
  · exact setVv_other _ _ _ _ h
  · rfl

theorem vvCount9_congr {s t : MState} (hw : t.xsize = s.xsize) (hh : t.ysize = s.ysize)
    (hm : ∀ x y : Int, (t.vvram x y = VCell.mine ↔ s.vvram x y = VCell.mine))
    (x y : Int) : vvCount9 t x y = vvCount9 s x y := by
  unfold vvCount9
  apply List.countP_congr
  intro d _
  rw [decide_eq_decide.mpr (inBM_congr hw hh _ _)]
  have : (t.vvram (x + d.1) (y + d.2) == VCell.mine)
      = (s.vvram (x + d.1) (y + d.2) == VCell.mine) := by
    rcases hbeq : s.vvram (x + d.1) (y + d.2) == VCell.mine with h | h
    · simp only [beq_eq_false_iff_ne] at hbeq
      simp only [beq_eq_false_iff_ne]
      exact fun hc => hbeq ((hm _ _).mp hc)
    · simp only [beq_iff_eq] at hbeq
      simp only [beq_iff_eq]
      exact (hm _ _).mpr hbeq
  rw [this]

theorem vvCount9_eq_vvCount8 (s : MState) (x y : Int)
    (h : s.vvram x y ≠ VCell.mine) : vvCount9 s x y = vvCount8 s x y := by
  have hperm : Nyanko.deltas9.Perm ((0, 0) :: deltas8) := by
    rw [show Nyanko.deltas9
        = [((-1 : Int), (-1 : Int)), (-1, 0), (-1, 1), (0, -1)]
          ++ (0, 0) :: [((0 : Int), (1 : Int)), (1, -1), (1, 0), (1, 1)] from rfl]
    exact List.perm_middle
  rw [vvCount9, hperm.countP_eq, List.countP_cons]
  have hself : (decide (inBM s (x + 0) (y + 0))
      && (s.vvram (x + 0) (y + 0) == VCell.mine)) = false := by
    simp only [add_zero]
    simp [beq_eq_false_iff_ne.mpr h]
  simp only [hself]
  simp [vvCount8]

theorem calcfield_fold_untouched :
    ∀ (L : List (Int × Int)) (acc : MState) {x y : Int},
      (∀ p ∈ L, ¬(x = p.1 ∧ y = p.2)) →
      ((L.foldl (fun a q => calccell a q.1 q.2) acc).vvram x y) = acc.vvram x y
  | [], _, _, _, _ => rfl
  | q :: L, acc, x, y, h => by
    rw [List.foldl_cons,
      calcfield_fold_untouched L (calccell acc q.1 q.2)
        fun p hp => h p (List.mem_cons_of_mem _ hp),
      calccell_untouched acc q.1 q.2 (h q (List.mem_cons_self _ _))]

theorem calcfield_fold_correct (s : MState) :
    ∀ (L : List (Int × Int)), L.Nodup → ∀ (acc : MState),
      acc.xsize = s.xsize → acc.ysize = s.ysize →
      (∀ x y : Int, (acc.vvram x y = VCell.mine ↔ s.vvram x y = VCell.mine)) →
      (∀ p ∈ L, acc.vvram p.1 p.2 = s.vvram p.1 p.2) →
      ∀ p ∈ L, s.vvram p.1 p.2 = VCell.num 0 →
        ((L.foldl (fun a q => calccell a q.1 q.2) acc).vvram p.1 p.2)
          = VCell.num (vvCount9 s p.1 p.2)
  | [], _, _, _, _, _, _, _, hp, _ => absurd hp (List.not_mem_nil _)
  | q :: L, hnd, acc, hw, hh, hm, horig, p, hp, hp0 => by
    rw [List.foldl_cons]
    have hqL : q ∉ L := (List.nodup_cons.mp hnd).1
    have hndL : L.Nodup := (List.nodup_cons.mp hnd).2
    have hw' : (calccell acc q.1 q.2).xsize = s.xsize := by rw [calccell_xsize, hw]
    have hh' : (calccell acc q.1 q.2).ysize = s.ysize := by rw [calccell_ysize, hh]
    have hm' : ∀ x y : Int,
        ((calccell acc q.1 q.2).vvram x y = VCell.mine ↔ s.vvram x y = VCell.mine) :=
      fun x y => (calccell_mine_iff acc q.1 q.2 x y).trans (hm x y)
    have horig' : ∀ r ∈ L, (calccell acc q.1 q.2).vvram r.1 r.2 = s.vvram r.1 r.2 := by
      intro r hr
      have hrq : ¬(r.1 = q.1 ∧ r.2 = q.2) := by
        intro hc
        exact hqL (by
          have : r = q := Prod.ext hc.1 hc.2
          exact this ▸ hr)
      rw [calccell_untouched acc q.1 q.2 hrq]
      exact horig r (List.mem_cons_of_mem _ hr)
    by_cases hpL : p ∈ L
    · exact calcfield_fold_correct s L hndL (calccell acc q.1 q.2)
        hw' hh' hm' horig' p hpL hp0
    · have hpq : p = q := by
        rcases List.mem_cons.mp hp with h | h
        · exact h
        · exact absurd h hpL
      subst hpq
      have hne : ∀ r ∈ L, ¬(p.1 = r.1 ∧ p.2 = r.2) := by
        intro r hr hc
        exact hpL (by
          have : p = r := Prod.ext hc.1 hc.2
          exact this ▸ hr)
      rw [calcfield_fold_untouched L (calccell acc p.1 p.2) hne]
      have haccp : acc.vvram p.1 p.2 = VCell.num 0 := by
        rw [horig p hp, hp0]
      unfold calccell
      rw [if_pos haccp, setVv_self]
      congr 1
      exact vvCount9_congr hw hh hm p.1 p.2

end MS

namespace MS

theorem vvFresh_iff {s : MState} :
    vvFresh s = true ↔
      ∀ x y : Int, inBM s x y → s.vvram x y ≠ VCell.mine → s.vvram x y = VCell.num 0 := by
  rw [vvFresh, List.all_eq_true]
  constructor
  · intro h x y hin hnm
    have := h (x, y) (mem_coordList_iff_inBM.mpr hin)
    simp only [Bool.or_eq_true, beq_iff_eq] at this
    rcases this with h1 | h1
    · exact absurd h1 hnm
    · exact h1
  · rintro h ⟨x, y⟩ hp
    have hin := mem_coordList_iff_inBM.mp hp
    simp only [Bool.or_eq_true, beq_iff_eq]
    by_cases hm : s.vvram x y = VCell.mine
    · exact Or.inl hm
    · exact Or.inr (h x y hin hm)

end MS

open Nyanko MS in
/-- C4 confirmed.  nyankosweeper: after `calculate_adjacents`, every
in-bounds non-mine cell's `adjacent` equals `adjCount` — the number of
mine cells among its in-bounds 8-neighbours (offsets `(dx, dy) ≠ (0,0)`,
clipped to the grid, no wraparound).  minesweeper.py: starting from any
post-`putmines` grid (`vvFresh`: non-mine cells hold 0), after
`calcfield` every in-bounds non-mine cell holds `num` of the count of
mines among its proper in-bounds 8-neighbours (the source's 9-offset sum
counts the cell itself, which is not a mine, so the value agrees). -/
theorem C4_confirmed :
    (∀ (b : Nyanko.Board) (x y : Int), inB b x y → (b.grid x y).mine = false →
      ((b.calculate_adjacents).grid x y).adjacent = Nyanko.adjCount b x y)
    ∧ (∀ (s : MS.MState) (x y : Int), MS.vvFresh s = true →
        inBM s x y → s.vvram x y ≠ MS.VCell.mine →
        (MS.calcfield s).vvram x y = MS.VCell.num (MS.vvCount8 s x y)) := by
  constructor
  · intro b x y _ hm
    exact calcfold_correct b (coordList b.width b.height) b rfl rfl (fun _ _ => rfl)
      (x, y) (mem_coordList_iff_inB.mpr ‹_›) hm
  · intro s x y hfresh hin hnm
    have hzero : s.vvram x y = VCell.num 0 := (vvFresh_iff.mp hfresh) x y hin hnm
    have := calcfield_fold_correct s (Nyanko.coordList s.xsize s.ysize)
      (nodup_coordList _ _) s rfl rfl (fun _ _ => Iff.rfl) (fun _ _ => rfl)
      (x, y) (mem_coordList_iff_inBM.mpr hin) hzero
    rw [MS.calcfield, this, vvCount9_eq_vvCount8 s x y hnm]

open Nyanko MS in
/-- C4 witness: both parts instantiated on concrete boards with one mine
at `(0,0)` — the neighbouring cell receives adjacent count 1. -/
theorem C4_witness :
    ((Ex.badAdj21.calculate_adjacents).grid 1 0).adjacent = Nyanko.adjCount Ex.badAdj21 1 0
    ∧ (MS.calcfield Ex.ms22).vvram 1 1 = MS.VCell.num (MS.vvCount8 Ex.ms22 1 1) :=
  ⟨C4_confirmed.1 Ex.badAdj21 1 0 (by decide) (by decide),
   C4_confirmed.2 Ex.ms22 1 1 (by decide) (by decide) (by decide)⟩

/-! ## Mine placement (C5) -/

namespace Nyanko

@[simp] theorem setMine_width (b : Board) (x y : Int) :
    (b.setMine x y).width = b.width := rfl

@[simp] theorem setMine_height (b : Board) (x y : Int) :
    (b.setMine x y).height = b.height := rfl

theorem mineCount_setMine {b : Board} {x y : Int} (hin : inB b x y)
    (hfree : (b.grid x y).mine = false) :
    mineCount (b.setMine x y) = mineCount b + 1 := by
  have key := countP_flip_one (l := coordList b.width b.height)
    (p := fun p => ((b.setMine x y).grid p.1 p.2).mine)
    (q := fun p => (b.grid p.1 p.2).mine)
    (nodup_coordList _ _) (e := (x, y)) (mem_coordList_iff_inB.mpr hin)
    (by simp [Board.setMine, set_grid_self])
    hfree
    (by
      rintro ⟨a, c⟩ hac hne
      have : ¬(a = x ∧ c = y) := by
        intro hc
        exact hne (Prod.ext hc.1 hc.2)
      simp [Board.setMine, set_grid_other _ _ _ _ this])
  simp only [mineCount, setMine_width, setMine_height]
  omega

theorem exists_free_cell {b : Board} (h : mineCount b < b.width * b.height) :
    ∃ x y : Int, inB b x y ∧ (b.grid x y).mine = false := by
  by_contra hc
  push_neg at hc
  have hall : ∀ p ∈ coordList b.width b.height, ((b.grid p.1 p.2).mine : Bool) = true := by
    rintro ⟨x, y⟩ hp
    have hin := mem_coordList_iff_inB.mp hp
    rcases hb : (b.grid x y).mine with hf | ht
    · exact absurd hb (hc x y hin)
    · rfl
  have : mineCount b = (coordList b.width b.height).length :=
    List.countP_eq_length.mpr hall
  rw [length_coordList] at this
  omega

theorem placeMinesAux_success (w h : Nat) (stream : Nat → Int × Int)
    (hsw : ∀ k : Nat, 0 ≤ (stream k).1 ∧ (stream k).1 < (w : Int)
      ∧ 0 ≤ (stream k).2 ∧ (stream k).2 < (h : Int))
    (hfair : ∀ x y : Int,
      0 ≤ x → x < (w : Int) → 0 ≤ y → y < (h : Int) →
      ∀ k : Nat, ∃ j : Nat, k ≤ j ∧ stream j = (x, y)) :
    ∀ (n : Nat) (b : Board) (k : Nat), b.width = w → b.height = h →
      mineCount b + n ≤ w * h →
      ∃ (fuel : Nat) (g : Board),
        placeMinesAux stream fuel k b n = some g
        ∧ mineCount g = mineCount b + n ∧ g.width = w ∧ g.height = h := by
  intro n
  induction n with
  | zero =>
    intro b k hbw hbh _
    exact ⟨0, b, rfl, by omega, hbw, hbh⟩
  | succ n IH =>
    have step : ∀ (k : Nat) (b : Board), b.width = w → b.height = h →
        mineCount b + (n + 1) ≤ w * h →
        (b.grid (stream k).1 (stream k).2).mine = false →
        ∃ (fuel : Nat) (g : Board),
          placeMinesAux stream fuel k b (n + 1) = some g
          ∧ mineCount g = mineCount b + (n + 1) ∧ g.width = w ∧ g.height = h := by
      intro k b hbw hbh hcnt hfree
      have hinb : inB b (stream k).1 (stream k).2 := by
        have := hsw k
        rw [inB, hbw, hbh]
        exact this
      have hset : mineCount (b.setMine (stream k).1 (stream k).2) = mineCount b + 1 :=
        mineCount_setMine hinb hfree
      obtain ⟨fuel, g, hrun, hcg, hgw, hgh⟩ :=
        IH (b.setMine (stream k).1 (stream k).2) (k + 1)
          (by rw [setMine_width, hbw]) (by rw [setMine_height, hbh])
          (by rw [hset]; omega)
      refine ⟨fuel + 1, g, ?_, by rw [hcg, hset]; omega, hgw, hgh⟩
      simp only [placeMinesAux]
      rw [if_neg (by simp [hfree])]
      exact hrun
    intro b k hbw hbh hcnt
    obtain ⟨x, y, hin, hfreexy⟩ := exists_free_cell (b := b)
      (by rw [hbw, hbh]; omega)
    rw [inB, hbw, hbh] at hin
    obtain ⟨j, hkj, hstj⟩ := hfair x y hin.1 hin.2.1 hin.2.2.1 hin.2.2.2 k
    have inner : ∀ (d kk : Nat) (bb : Board), bb.width = w → bb.height = h →
        mineCount bb + (n + 1) ≤ w * h →
        (bb.grid (stream (kk + d)).1 (stream (kk + d)).2).mine = false →
        ∃ (fuel : Nat) (g : Board),
          placeMinesAux stream fuel kk bb (n + 1) = some g
          ∧ mineCount g = mineCount bb + (n + 1) ∧ g.width = w ∧ g.height = h := by
      intro d
      induction d with
      | zero =>
        intro kk bb hbw2 hbh2 hcnt2 hfree2
        rw [Nat.add_zero] at hfree2
        exact step kk bb hbw2 hbh2 hcnt2 hfree2
      | succ d ihd =>
        intro kk bb hbw2 hbh2 hcnt2 hfree2
        rcases hmk : (bb.grid (stream kk).1 (stream kk).2).mine with hf | ht
        · exact step kk bb hbw2 hbh2 hcnt2 hmk
        · obtain ⟨fuel, g, hrun, hcg, hgw, hgh⟩ :=
            ihd (kk + 1) bb hbw2 hbh2 hcnt2
              (by
                have : kk + 1 + d = kk + (d + 1) := by omega
                rw [this]
                exact hfree2)
          refine ⟨fuel + 1, g, ?_, hcg, hgw, hgh⟩
          simp only [placeMinesAux]
          rw [if_pos (by simp [hmk])]
          exact hrun
    refine inner (j - k) k b hbw hbh hcnt ?_
    have hkj' : k + (j - k) = j := by omega
    rw [hkj', hstj]
    exact hfreexy

end Nyanko

namespace MS

@[simp] theorem setVv_xsize (s : MState) (x y : Int) (v : VCell) :
    (s.setVv x y v).xsize = s.xsize := rfl

@[simp] theorem setVv_ysize (s : MState) (x y : Int) (v : VCell) :
    (s.setVv x y v).ysize = s.ysize := rfl

theorem mineCountM_setVv {s : MState} {x y : Int} (hin : inBM s x y)
    (hfree : s.vvram x y = VCell.num 0) :
    mineCountM (s.setVv x y VCell.mine) = mineCountM s + 1 := by
  have key := Nyanko.countP_flip_one (l := Nyanko.coordList s.xsize s.ysize)
    (p := fun p => (s.setVv x y VCell.mine).vvram p.1 p.2 == VCell.mine)
    (q := fun p => s.vvram p.1 p.2 == VCell.mine)
    (Nyanko.nodup_coordList _ _) (e := (x, y)) (mem_coordList_iff_inBM.mpr hin)
    (by simp [setVv_self])
    (by simp [hfree])
    (by
      rintro ⟨a, c⟩ hac hne
      have hna : ¬(a = x ∧ c = y) := by
        intro hc
        exact hne (Prod.ext hc.1 hc.2)
      simp [setVv_other _ _ _ _ hna])
  simp only [mineCountM, setVv_xsize, setVv_ysize]
  omega

theorem exists_free_cell_M {s : MState} (hfresh : vvFresh s = true)
    (h : mineCountM s < s.xsize * s.ysize) :
    ∃ x y : Int, inBM s x y ∧ s.vvram x y = VCell.num 0 := by
  by_contra hc
  push_neg at hc
  have hall : ∀ p ∈ Nyanko.coordList s.xsize s.ysize,
      (s.vvram p.1 p.2 == VCell.mine) = true := by
    rintro ⟨x, y⟩ hp
    have hin := mem_coordList_iff_inBM.mp hp
    by_cases hm : s.vvram x y = VCell.mine
    · simp [hm]
    · exact absurd ((vvFresh_iff.mp hfresh) x y hin hm) (hc x y hin)
  have : mineCountM s = (Nyanko.coordList s.xsize s.ysize).length :=
    List.countP_eq_length.mpr hall
  rw [Nyanko.length_coordList] at this
  omega

theorem vvFresh_setVv_mine {s : MState} (x y : Int) (hfresh : vvFresh s = true) :
    vvFresh (s.setVv x y VCell.mine) = true := by
  rw [vvFresh, List.all_eq_true]
  rintro ⟨a, c⟩ hp
  by_cases hac : a = x ∧ c = y
  · obtain ⟨rfl, rfl⟩ := hac
    simp [setVv_self]
  · rw [vvFresh, List.all_eq_true] at hfresh
    have := hfresh (a, c) hp
    simpa [setVv_other _ _ _ _ hac] using this

theorem putminesAux_success (w h : Nat) (stream : Nat → Int × Int)
    (hsw : ∀ k : Nat, 0 ≤ (stream k).1 ∧ (stream k).1 < (w : Int)
      ∧ 0 ≤ (stream k).2 ∧ (stream k).2 < (h : Int))
    (hfair : ∀ x y : Int,
      0 ≤ x → x < (w : Int) → 0 ≤ y → y < (h : Int) →
      ∀ k : Nat, ∃ j : Nat, k ≤ j ∧ stream j = (x, y)) :
    ∀ (n : Nat) (s : MState) (k : Nat), s.xsize = w → s.ysize = h →
      vvFresh s = true →
      mineCountM s + n ≤ w * h →
      ∃ (fuel : Nat) (g : MState),
        putminesAux stream fuel k s n = some g
        ∧ mineCountM g = mineCountM s + n ∧ g.xsize = w ∧ g.ysize = h := by
  intro n
  induction n with
  | zero =>
    intro s k hbw hbh _ _
    exact ⟨0, s, rfl, by omega, hbw, hbh⟩
  | succ n IH =>
    have step : ∀ (k : Nat) (s : MState), s.xsize = w → s.ysize = h →
        vvFresh s = true →
        mineCountM s + (n + 1) ≤ w * h →
        s.vvram (stream k).1 (stream k).2 = VCell.num 0 →
        ∃ (fuel : Nat) (g : MState),
          putminesAux stream fuel k s (n + 1) = some g
          ∧ mineCountM g = mineCountM s + (n + 1) ∧ g.xsize = w ∧ g.ysize = h := by
      intro k s hbw hbh hfresh hcnt hfree
      have hinb : inBM s (stream k).1 (stream k).2 := by
        have := hsw k
        rw [inBM, hbw, hbh]
        exact this
      have hset : mineCountM (s.setVv (stream k).1 (stream k).2 VCell.mine)
          = mineCountM s + 1 :=
        mineCountM_setVv hinb hfree
      obtain ⟨fuel, g, hrun, hcg, hgw, hgh⟩ :=
        IH (s.setVv (stream k).1 (stream k).2 VCell.mine) (k + 1)
          (by rw [setVv_xsize, hbw]) (by rw [setVv_ysize, hbh])
          (vvFresh_setVv_mine _ _ hfresh)
          (by rw [hset]; omega)
      refine ⟨fuel + 1, g, ?_, by rw [hcg, hset]; omega, hgw, hgh⟩
      simp only [putminesAux]
      rw [if_pos hfree]
      exact hrun
    intro s k hbw hbh hfresh hcnt
    obtain ⟨x, y, hin, hfreexy⟩ := exists_free_cell_M hfresh
      (by rw [hbw, hbh]; omega)
    rw [inBM, hbw, hbh] at hin
    obtain ⟨j, hkj, hstj⟩ := hfair x y hin.1 hin.2.1 hin.2.2.1 hin.2.2.2 k
    have inner : ∀ (d kk : Nat) (ss : MState), ss.xsize = w → ss.ysize = h →
        vvFresh ss = true →
        mineCountM ss + (n + 1) ≤ w * h →
        ss.vvram (stream (kk + d)).1 (stream (kk + d)).2 = VCell.num 0 →
        ∃ (fuel : Nat) (g : MState),
          putminesAux stream fuel kk ss (n + 1) = some g
          ∧ mineCountM g = mineCountM ss + (n + 1) ∧ g.xsize = w ∧ g.ysize = h := by
      intro d
      induction d with
      | zero =>
        intro kk ss hbw2 hbh2 hfresh2 hcnt2 hfree2
        rw [Nat.add_zero] at hfree2
        exact step kk ss hbw2 hbh2 hfresh2 hcnt2 hfree2
      | succ d ihd =>
        intro kk ss hbw2 hbh2 hfresh2 hcnt2 hfree2
        by_cases hmk : ss.vvram (stream kk).1 (stream kk).2 = VCell.num 0
        · exact step kk ss hbw2 hbh2 hfresh2 hcnt2 hmk
        · obtain ⟨fuel, g, hrun, hcg, hgw, hgh⟩ :=
            ihd (kk + 1) ss hbw2 hbh2 hfresh2 hcnt2
              (by
                have heq : kk + 1 + d = kk + (d + 1) := by omega
                rw [heq]
                exact hfree2)
          refine ⟨fuel + 1, g, ?_, hcg, hgw, hgh⟩
          simp only [putminesAux]
          rw [if_neg hmk]
          exact hrun
    refine inner (j - k) k s hbw hbh hfresh hcnt ?_
    have hkj' : k + (j - k) = j := by omega
    rw [hkj', hstj]
    exact hfreexy

end MS

open Nyanko MS in
/-- C5 confirmed.  For any dimensions, any mine-free starting grid and
any `n < width*height`, both mine-placement loops terminate — modelling
`random.randint` as a pick stream that is in range and hits every cell
infinitely often (true with probability 1 of the real generator; the
`fuel` is the number of picks consumed) — with exactly `n` cells marked
as mines.  Distinctness is forced by the retry loop: a pick landing on a
cell already holding a mine is rejected, so the mine count rises by
exactly one per placement. -/
theorem C5_confirmed :
    (∀ (w h n : Nat) (stream : Nat → Int × Int) (b : Nyanko.Board),
      b.width = w → b.height = h → Nyanko.mineCount b = 0 → n < w * h →
      (∀ k : Nat, 0 ≤ (stream k).1 ∧ (stream k).1 < (w : Int)
        ∧ 0 ≤ (stream k).2 ∧ (stream k).2 < (h : Int)) →
      (∀ x y : Int, 0 ≤ x → x < (w : Int) → 0 ≤ y → y < (h : Int) →
        ∀ k : Nat, ∃ j : Nat, k ≤ j ∧ stream j = (x, y)) →
      ∃ (fuel : Nat) (g : Nyanko.Board),
        Nyanko.placeMinesAux stream fuel 0 b n = some g ∧ Nyanko.mineCount g = n)
    ∧ (∀ (w h n : Nat) (stream : Nat → Int × Int) (s : MS.MState),
      s.xsize = w → s.ysize = h → MS.vvFresh s = true →
      MS.mineCountM s = 0 → n < w * h →
      (∀ k : Nat, 0 ≤ (stream k).1 ∧ (stream k).1 < (w : Int)
        ∧ 0 ≤ (stream k).2 ∧ (stream k).2 < (h : Int)) →
      (∀ x y : Int, 0 ≤ x → x < (w : Int) → 0 ≤ y → y < (h : Int) →
        ∀ k : Nat, ∃ j : Nat, k ≤ j ∧ stream j = (x, y)) →
      ∃ (fuel : Nat) (g : MS.MState),
        MS.putminesAux stream fuel 0 s n = some g ∧ MS.mineCountM g = n) := by
  constructor
  · intro w h n stream b hbw hbh hc0 hn hsw hfair
    obtain ⟨fuel, g, hrun, hcg, _, _⟩ :=
      placeMinesAux_success w h stream hsw hfair n b 0 hbw hbh (by omega)
    exact ⟨fuel, g, hrun, by omega⟩
  · intro w h n stream s hbw hbh hfresh hc0 hn hsw hfair
    obtain ⟨fuel, g, hrun, hcg, _, _⟩ :=
      putminesAux_success w h stream hsw hfair n s 0 hbw hbh hfresh (by omega)
    exact ⟨fuel, g, hrun, by omega⟩

open Nyanko MS in
/-- C5 witness: one mine placed on a 2×1 grid with the alternating pick
stream `j ↦ (j mod 2, 0)`. -/
theorem C5_witness :
    (∃ (fuel : Nat) (g : Nyanko.Board),
      Nyanko.placeMinesAux (fun j => (((j % 2 : Nat) : Int), 0)) fuel 0 Ex.flagged21 1
        = some g ∧ Nyanko.mineCount g = 1)
    ∧ (∃ (fuel : Nat) (g : MS.MState),
      MS.putminesAux (fun j => (((j % 2 : Nat) : Int), 0)) fuel 0 Ex.msFresh21 1
        = some g ∧ MS.mineCountM g = 1) := by
  have hsw : ∀ k : Nat,
      0 ≤ ((fun j => (((j % 2 : Nat) : Int), (0 : Int))) k).1
      ∧ ((fun j => (((j % 2 : Nat) : Int), (0 : Int))) k).1 < ((2 : Nat) : Int)
      ∧ 0 ≤ ((fun j => (((j % 2 : Nat) : Int), (0 : Int))) k).2
      ∧ ((fun j => (((j % 2 : Nat) : Int), (0 : Int))) k).2 < ((1 : Nat) : Int) := by
    intro k
    have : k % 2 < 2 := Nat.mod_lt _ (by omega)
    refine ⟨?_, ?_, ?_, ?_⟩ <;> simp <;> omega
  have hfair : ∀ x y : Int, 0 ≤ x → x < ((2 : Nat) : Int) → 0 ≤ y → y < ((1 : Nat) : Int) →
      ∀ k : Nat, ∃ j : Nat, k ≤ j
        ∧ (fun j => (((j % 2 : Nat) : Int), (0 : Int))) j = (x, y) := by
    intro x y hx0 hxw hy0 hyh k
    refine ⟨2 * k + x.toNat, by omega, ?_⟩
    have hmod : (2 * k + x.toNat) % 2 = x.toNat := by omega
    have hy : y = 0 := by omega
    apply Prod.ext
    · simp only [hmod]
      exact Int.toNat_of_nonneg hx0
    · exact hy.symm
  exact ⟨C5_confirmed.1 2 1 1 _ Ex.flagged21 rfl rfl (by decide) (by decide) hsw hfair,
    C5_confirmed.2 2 1 1 _ Ex.msFresh21 rfl rfl (by decide) (by decide) (by decide) hsw hfair⟩

/-! ## Flood-fill termination and fuel stability (C8) -/

namespace Nyanko

@[simp] theorem setRevealedTo_width (b : Board) (x y : Int) (v : Bool) :
    (b.setRevealedTo x y v).width = b.width := rfl

@[simp] theorem setRevealedTo_height (b : Board) (x y : Int) (v : Bool) :
    (b.setRevealedTo x y v).height = b.height := rfl

theorem revealFuel_static : ∀ (f : Nat) (c : Board) (x y : Int),
    (revealFuel f c x y).width = c.width
    ∧ (revealFuel f c x y).height = c.height
    ∧ ∀ a b' : Int,
        ((revealFuel f c x y).grid a b').mine = (c.grid a b').mine
        ∧ ((revealFuel f c x y).grid a b').adjacent = (c.grid a b').adjacent
        ∧ ((revealFuel f c x y).grid a b').mark = (c.grid a b').mark
  | 0, c, x, y => ⟨rfl, rfl, fun _ _ => ⟨rfl, rfl, rfl⟩⟩
  | f + 1, c, x, y => by
    simp only [revealFuel]
    split
    · exact ⟨rfl, rfl, fun _ _ => ⟨rfl, rfl, rfl⟩⟩
    · split
      · refine @foldl_invariant _ _
          (fun acc => acc.width = c.width ∧ acc.height = c.height ∧
            ∀ a b' : Int,
              (acc.grid a b').mine = (c.grid a b').mine
              ∧ (acc.grid a b').adjacent = (c.grid a b').adjacent
              ∧ (acc.grid a b').mark = (c.grid a b').mark)
          _ ?_ deltas9 (c.setRevealedTo x y true) ?_
        · intro acc d hacc
          dsimp only
          split
          · obtain ⟨hw, hh, hf⟩ := revealFuel_static f acc (x + d.1) (y + d.2)
            obtain ⟨hw0, hh0, hf0⟩ := hacc
            refine ⟨hw.trans hw0, hh.trans hh0, fun a b' => ?_⟩
            obtain ⟨h1, h2, h3⟩ := hf a b'
            obtain ⟨g1, g2, g3⟩ := hf0 a b'
            exact ⟨h1.trans g1, h2.trans g2, h3.trans g3⟩
          · exact hacc
        · refine ⟨rfl, rfl, fun a b' => ?_⟩
          by_cases hp : a = x ∧ b' = y
          · obtain ⟨rfl, rfl⟩ := hp
            simp [Board.setRevealedTo, set_grid_self]
          · simp [Board.setRevealedTo, set_grid_other _ _ _ _ hp]
      · refine ⟨rfl, rfl, fun a b' => ?_⟩
        by_cases hp : a = x ∧ b' = y
        · obtain ⟨rfl, rfl⟩ := hp
          simp [Board.setRevealedTo, set_grid_self]
        · simp [Board.setRevealedTo, set_grid_other _ _ _ _ hp]

theorem revealFuel_mono : ∀ (f : Nat) (c : Board) (x y a b' : Int),
    (c.grid a b').revealed = true → ((revealFuel f c x y).grid a b').revealed = true
  | 0, _, _, _, _, _, h => h
  | f + 1, c, x, y, a, b', h => by
    simp only [revealFuel]
    split
    · exact h
    · have hb1 : ((c.setRevealedTo x y true).grid a b').revealed = true := by
        by_cases hp : a = x ∧ b' = y
        · obtain ⟨rfl, rfl⟩ := hp
          simp [Board.setRevealedTo, set_grid_self]
        · simpa [Board.setRevealedTo, set_grid_other _ _ _ _ hp] using h
      split
      · refine @foldl_invariant _ _
          (fun acc => (acc.grid a b').revealed = true)
          _ ?_ deltas9 (c.setRevealedTo x y true) hb1
        intro acc d hacc
        dsimp only
        split
        · exact revealFuel_mono f acc (x + d.1) (y + d.2) a b' hacc
        · exact hacc
      · exact hb1

theorem unrevealedCount_le_of_mono {c c' : Board} (hw : c'.width = c.width)
    (hh : c'.height = c.height)
    (hmono : ∀ a b' : Int, (c.grid a b').revealed = true → (c'.grid a b').revealed = true) :
    unrevealedCount c' ≤ unrevealedCount c := by
  rw [unrevealedCount, unrevealedCount, hw, hh]
  apply List.countP_mono_left
  rintro ⟨a, b'⟩ _ h
  simp only [Bool.not_eq_eq_eq_not, Bool.not_true] at h ⊢
  rcases hr : (c.grid a b').revealed with hf | ht
  · rfl
  · exact absurd (hmono a b' hr) (by simp [h])

theorem unrevealedCount_revealFuel_le (f : Nat) (c : Board) (x y : Int) :
    unrevealedCount (revealFuel f c x y) ≤ unrevealedCount c := by
  obtain ⟨hw, hh, _⟩ := revealFuel_static f c x y
  exact unrevealedCount_le_of_mono hw hh (revealFuel_mono f c x y)

theorem unrevealedCount_setRevealed {c : Board} {x y : Int} (hin : inB c x y)
    (hunrev : (c.grid x y).revealed = false) :
    unrevealedCount (c.setRevealedTo x y true) + 1 = unrevealedCount c := by
  have key := countP_flip_one (l := coordList c.width c.height)
    (p := fun p => !(c.grid p.1 p.2).revealed)
    (q := fun p => !((c.setRevealedTo x y true).grid p.1 p.2).revealed)
    (nodup_coordList _ _) (e := (x, y)) (mem_coordList_iff_inB.mpr hin)
    (by simp [hunrev])
    (by simp [Board.setRevealedTo, set_grid_self])
    (by
      rintro ⟨a, c'⟩ hac hne
      have hna : ¬(a = x ∧ c' = y) := by
        intro hc
        exact hne (Prod.ext hc.1 hc.2)
      simp [Board.setRevealedTo, set_grid_other _ _ _ _ hna])
  simp only [unrevealedCount, setRevealedTo_width, setRevealedTo_height]
  omega

theorem unrevealedCount_pos {c : Board} {x y : Int} (hin : inB c x y)
    (hunrev : (c.grid x y).revealed = false) : 1 ≤ unrevealedCount c := by
  rw [unrevealedCount]
  have : 0 < (coordList c.width c.height).countP fun p => !(c.grid p.1 p.2).revealed :=
    List.countP_pos_iff.mpr ⟨(x, y), mem_coordList_iff_inB.mpr hin, by simp [hunrev]⟩
  omega

theorem unrevealedCount_le_size (c : Board) :
    unrevealedCount c ≤ c.width * c.height := by
  rw [unrevealedCount, ← length_coordList c.width c.height]
  exact List.countP_le_length _

theorem revealFuel_guard {c : Board} {x y : Int}
    (h : (c.grid x y).revealed = true ∨ (c.grid x y).mark ≠ 0) :
    ∀ f : Nat, revealFuel f c x y = c
  | 0 => rfl
  | f + 1 => by
    simp only [revealFuel]
    rw [if_pos h]

theorem unrevealedCount_eq_zero_revealed {c : Board} (h : unrevealedCount c = 0)
    {x y : Int} (hin : inB c x y) : (c.grid x y).revealed = true := by
  rw [unrevealedCount] at h
  have := List.countP_eq_zero.mp h (x, y) (mem_coordList_iff_inB.mpr hin)
  simpa using this

theorem revealFuel_stable_aux : ∀ (n : Nat) (c : Board) (x y : Int) (f₁ f₂ : Nat),
    unrevealedCount c ≤ n → unrevealedCount c ≤ f₁ → unrevealedCount c ≤ f₂ →
    inB c x y → revealFuel f₁ c x y = revealFuel f₂ c x y := by
  intro n
  induction n with
  | zero =>
    intro c x y f₁ f₂ hn _ _ hin
    have hrev : (c.grid x y).revealed = true :=
      unrevealedCount_eq_zero_revealed (by omega) hin
    rw [revealFuel_guard (Or.inl hrev) f₁, revealFuel_guard (Or.inl hrev) f₂]
  | succ n IH =>
    intro c x y f₁ f₂ hn h1 h2 hin
    by_cases hguard : (c.grid x y).revealed = true ∨ (c.grid x y).mark ≠ 0
    · rw [revealFuel_guard hguard f₁, revealFuel_guard hguard f₂]
    · push_neg at hguard
      obtain ⟨hrev, hmark⟩ := hguard
      rw [ne_eq, Bool.not_eq_true] at hrev
      have hpos : 1 ≤ unrevealedCount c := unrevealedCount_pos hin hrev
      obtain ⟨g₁, rfl⟩ : ∃ g, f₁ = g + 1 := ⟨f₁ - 1, by omega⟩
      obtain ⟨g₂, rfl⟩ : ∃ g, f₂ = g + 1 := ⟨f₂ - 1, by omega⟩
      have hceq : unrevealedCount (c.setRevealedTo x y true) + 1 = unrevealedCount c :=
        unrevealedCount_setRevealed hin hrev
      simp only [revealFuel]
      have hng : ¬((c.grid x y).revealed = true ∨ (c.grid x y).mark ≠ 0) := by
        intro hc
        rcases hc with hc | hc
        · rw [hrev] at hc; cases hc
        · exact hc hmark
      rw [if_neg hng, if_neg hng]
      by_cases hz : (c.grid x y).adjacent = 0 ∧ (c.grid x y).mine = false
      · rw [if_pos hz, if_pos hz]
        have hfold : ∀ (ds : List (Int × Int)) (acc : Board),
            acc.width = c.width → acc.height = c.height →
            unrevealedCount acc ≤ unrevealedCount (c.setRevealedTo x y true) →
            ds.foldl (fun acc d =>
              if inB acc (x + d.1) (y + d.2) then revealFuel g₁ acc (x + d.1) (y + d.2)
              else acc) acc
            = ds.foldl (fun acc d =>
              if inB acc (x + d.1) (y + d.2) then revealFuel g₂ acc (x + d.1) (y + d.2)
              else acc) acc := by
          intro ds
          induction ds with
          | nil => intro acc _ _ _; rfl
          | cons d ds ihds =>
            intro acc hw hh hcnt
            rw [List.foldl_cons, List.foldl_cons]
            have hstep : (if inB acc (x + d.1) (y + d.2)
                then revealFuel g₁ acc (x + d.1) (y + d.2) else acc)
                = (if inB acc (x + d.1) (y + d.2)
                then revealFuel g₂ acc (x + d.1) (y + d.2) else acc) := by
              split
              · exact IH acc (x + d.1) (y + d.2) g₁ g₂ (by omega) (by omega) (by omega) ‹_›
              · rfl
            rw [hstep]
            obtain ⟨hw2, hh2, _⟩ := revealFuel_static g₂ acc (x + d.1) (y + d.2)
            have hle : unrevealedCount (if inB acc (x + d.1) (y + d.2)
                then revealFuel g₂ acc (x + d.1) (y + d.2) else acc)
                ≤ unrevealedCount acc := by
              split
              · exact unrevealedCount_revealFuel_le g₂ acc (x + d.1) (y + d.2)
              · exact le_refl _
            refine ihds _ ?_ ?_ (le_trans hle hcnt)
            · split
              · rw [hw2, hw]
              · exact hw
            · split
              · rw [hh2, hh]
              · exact hh
        exact hfold deltas9 (c.setRevealedTo x y true) rfl rfl (le_refl _)
      · rw [if_neg hz, if_neg hz]

end Nyanko

namespace Nyanko

theorem revealFuel_stable {b : Board} {x y : Int} (hin : inB b x y)
    {f₁ f₂ : Nat} (h1 : unrevealedCount b ≤ f₁) (h2 : unrevealedCount b ≤ f₂) :
    revealFuel f₁ b x y = revealFuel f₂ b x y :=
  revealFuel_stable_aux (unrevealedCount b) b x y f₁ f₂ (le_refl _) h1 h2 hin

theorem unrevealedCount_reveal_lt {b : Board} {x y : Int} (hin : inB b x y)
    (hrev : (b.grid x y).revealed = false) (hmark : (b.grid x y).mark = 0) :
    unrevealedCount (b.reveal x y) < unrevealedCount b := by
  have hng : ¬((b.grid x y).revealed = true ∨ (b.grid x y).mark ≠ 0) := by
    intro hc
    rcases hc with hc | hc
    · rw [hrev] at hc; cases hc
    · exact hc hmark
  have hceq : unrevealedCount (b.setRevealedTo x y true) + 1 = unrevealedCount b :=
    unrevealedCount_setRevealed hin hrev
  rw [Board.reveal]
  simp only [revealFuel]
  rw [if_neg hng]
  by_cases hz : (b.grid x y).adjacent = 0 ∧ (b.grid x y).mine = false
  · rw [if_pos hz]
    have : unrevealedCount
        (deltas9.foldl (fun acc d =>
          if inB acc (x + d.1) (y + d.2)
          then revealFuel (b.width * b.height) acc (x + d.1) (y + d.2) else acc)
          (b.setRevealedTo x y true))
        ≤ unrevealedCount (b.setRevealedTo x y true) := by
      refine @foldl_invariant _ _
        (fun acc => unrevealedCount acc ≤ unrevealedCount (b.setRevealedTo x y true))
        _ ?_ deltas9 (b.setRevealedTo x y true) (le_refl _)
      intro acc d hacc
      dsimp only
      split
      · exact le_trans (unrevealedCount_revealFuel_le _ acc _ _) hacc
      · exact hacc
    omega
  · rw [if_neg hz]
    omega

end Nyanko

/-! ## Flood-fill exactness (C2) -/

namespace Nyanko

theorem freshB_iff {b : Board} :
    freshB b = true ↔
      ∀ x y : Int, inB b x y →
        (b.grid x y).revealed = false ∧ (b.grid x y).mark = 0 := by
  rw [freshB, List.all_eq_true]
  constructor
  · intro h x y hin
    have := h (x, y) (mem_coordList_iff_inB.mpr hin)
    simp only [Bool.and_eq_true, Bool.not_eq_eq_eq_not, Bool.not_true, beq_iff_eq] at this
    exact this
  · rintro h ⟨x, y⟩ hp
    have := h x y (mem_coordList_iff_inB.mp hp)
    simp [this.1, this.2]

theorem adjOKB_iff {b : Board} :
    adjOKB b = true ↔
      ∀ x y : Int, inB b x y → (b.grid x y).mine = false →
        (b.grid x y).adjacent = adjCount b x y := by
  rw [adjOKB, List.all_eq_true]
  constructor
  · intro h x y hin hm
    have := h (x, y) (mem_coordList_iff_inB.mpr hin)
    simp only [Bool.or_eq_true, beq_iff_eq] at this
    rcases this with h1 | h1
    · rw [hm] at h1; cases h1
    · exact h1
  · rintro h ⟨x, y⟩ hp
    have hin := mem_coordList_iff_inB.mp hp
    by_cases hm : (b.grid x y).mine = true
    · simp [hm]
    · rw [Bool.not_eq_true] at hm
      simp [h x y hin hm]

theorem adjCount_zero_nbrs {b : Board} {x y : Int} (h : adjCount b x y = 0) :
    ∀ d ∈ deltas9, ¬(d.1 = 0 ∧ d.2 = 0) → inB b (x + d.1) (y + d.2) →
      (b.grid (x + d.1) (y + d.2)).mine = false := by
  intro d hd hproper hbounds
  have hnp := List.countP_eq_zero.mp h d hd
  rcases hm : (b.grid (x + d.1) (y + d.2)).mine with hf | ht
  · rfl
  · exfalso
    apply hnp
    simp only [Bool.and_eq_true, decide_eq_true_eq]
    exact ⟨⟨hproper, hbounds⟩, hm⟩

theorem zreach_inB {b : Board} {x0 y0 : Int} (hin0 : inB b x0 y0) :
    ∀ {x y : Int}, zreach b x0 y0 x y → inB b x y := by
  intro x y h
  induction h with
  | base => exact hin0
  | step _ _ _ hin _ => exact hin

theorem zreach_not_mine {b : Board} {x0 y0 : Int}
    (hadj : ∀ x y : Int, inB b x y → (b.grid x y).mine = false →
      (b.grid x y).adjacent = adjCount b x y)
    (hmine0 : (b.grid x0 y0).mine = false) :
    ∀ {x y : Int}, zreach b x0 y0 x y → (b.grid x y).mine = false := by
  intro x y h
  induction h with
  | base => exact hmine0
  | step hr hz hnbr hin ih =>
    obtain ⟨hinz, hmz, haz⟩ := hz
    obtain ⟨d, hd, hdx, hdy⟩ := hnbr
    by_cases hdz : d.1 = 0 ∧ d.2 = 0
    · rw [hdx, hdy, hdz.1, hdz.2, add_zero, add_zero]
      exact hmz
    · have hcount : adjCount b _ _ = 0 := (hadj _ _ hinz hmz) ▸ haz
      rw [hdx, hdy]
      exact adjCount_zero_nbrs hcount d hd hdz (by rw [← hdx, ← hdy]; exact hin)

theorem sameStatic_refl (b : Board) : sameStatic b b :=
  ⟨rfl, rfl, fun _ _ => ⟨rfl, rfl, rfl⟩⟩

theorem sameStatic_set {b c : Board} (h : sameStatic b c) (x y : Int) (v : Bool) :
    sameStatic b (c.setRevealedTo x y v) := by
  obtain ⟨hw, hh, hf⟩ := h
  refine ⟨hw, hh, fun a b' => ?_⟩
  by_cases hp : a = x ∧ b' = y
  · obtain ⟨rfl, rfl⟩ := hp
    simpa [Board.setRevealedTo, set_grid_self] using hf a b'
  · simpa [Board.setRevealedTo, set_grid_other _ _ _ _ hp] using hf a b'

theorem sameStatic_revealFuel {b c : Board} (h : sameStatic b c)
    (f : Nat) (x y : Int) : sameStatic b (revealFuel f c x y) := by
  obtain ⟨hw, hh, hf⟩ := h
  obtain ⟨hw2, hh2, hf2⟩ := revealFuel_static f c x y
  refine ⟨hw.trans hw2.symm, hh.trans hh2.symm, fun a b' => ?_⟩
  obtain ⟨h1, h2, h3⟩ := hf a b'
  obtain ⟨g1, g2, g3⟩ := hf2 a b'
  exact ⟨g1.trans h1, g2.trans h2, g3.trans h3⟩

theorem inB_of_sameStatic {b c : Board} (h : sameStatic b c) (x y : Int) :
    inB c x y ↔ inB b x y := by
  obtain ⟨hw, hh, _⟩ := h
  rw [inB, inB, hw, hh]

end Nyanko

namespace Nyanko

theorem reveal_sound (b : Board) (x0 y0 : Int) (hin0 : inB b x0 y0) :
    ∀ (f : Nat) (c : Board) (x y : Int),
      sameStatic b c →
      (∀ a b' : Int, inB b a b' → (c.grid a b').revealed = true →
        zreach b x0 y0 a b' ∨ (b.grid a b').revealed = true) →
      zreach b x0 y0 x y →
      ∀ a b' : Int, inB b a b' → ((revealFuel f c x y).grid a b').revealed = true →
        zreach b x0 y0 a b' ∨ (b.grid a b').revealed = true := by
  intro f
  induction f with
  | zero =>
    intro c x y _ hinv _ a b' hab hrev
    exact hinv a b' hab hrev
  | succ f IH =>
    intro c x y hstatic hinv hreach a b' hab hrev
    simp only [revealFuel] at hrev
    by_cases hguard : (c.grid x y).revealed = true ∨ (c.grid x y).mark ≠ 0
    · rw [if_pos hguard] at hrev
      exact hinv a b' hab hrev
    · rw [if_neg hguard] at hrev
      have hstatic1 : sameStatic b (c.setRevealedTo x y true) :=
        sameStatic_set hstatic x y true
      have hinv1 : ∀ a2 b2 : Int, inB b a2 b2 →
          ((c.setRevealedTo x y true).grid a2 b2).revealed = true →
          zreach b x0 y0 a2 b2 ∨ (b.grid a2 b2).revealed = true := by
        intro a2 b2 hab2 hrev2
        by_cases hp : a2 = x ∧ b2 = y
        · obtain ⟨rfl, rfl⟩ := hp
          exact Or.inl hreach
        · rw [Board.setRevealedTo, set_grid_other _ _ _ _ hp] at hrev2
          exact hinv a2 b2 hab2 hrev2
      by_cases hz : (c.grid x y).adjacent = 0 ∧ (c.grid x y).mine = false
      · rw [if_pos hz] at hrev
        have hinBxy : inB b x y := zreach_inB hin0 hreach
        obtain ⟨_, _, hfields⟩ := hstatic
        have hzb : isZero b x y :=
          ⟨hinBxy, by rw [← (hfields x y).1]; exact hz.2,
            by rw [← (hfields x y).2.1]; exact hz.1⟩
        have hfold : ∀ (ds : List (Int × Int)), (∀ e ∈ ds, e ∈ deltas9) →
            ∀ (acc : Board), sameStatic b acc →
            (∀ a2 b2 : Int, inB b a2 b2 → (acc.grid a2 b2).revealed = true →
              zreach b x0 y0 a2 b2 ∨ (b.grid a2 b2).revealed = true) →
            ∀ a2 b2 : Int, inB b a2 b2 →
              ((ds.foldl (fun acc d =>
                if inB acc (x + d.1) (y + d.2) then revealFuel f acc (x + d.1) (y + d.2)
                else acc) acc).grid a2 b2).revealed = true →
              zreach b x0 y0 a2 b2 ∨ (b.grid a2 b2).revealed = true := by
          intro ds
          induction ds with
          | nil =>
            intro _ acc _ hinv2 a2 b2 hab2 hr2
            exact hinv2 a2 b2 hab2 hr2
          | cons d ds ihds =>
            intro hsub acc hstat2 hinv2 a2 b2 hab2 hr2
            rw [List.foldl_cons] at hr2
            have hd9 : d ∈ deltas9 := hsub d (List.mem_cons_self _ _)
            have hsub' : ∀ e ∈ ds, e ∈ deltas9 :=
              fun e he => hsub e (List.mem_cons_of_mem _ he)
            by_cases hbound : inB acc (x + d.1) (y + d.2)
            · rw [if_pos hbound] at hr2
              have hinBb : inB b (x + d.1) (y + d.2) :=
                (inB_of_sameStatic hstat2 _ _).mp hbound
              have hreach' : zreach b x0 y0 (x + d.1) (y + d.2) :=
                zreach.step hreach hzb ⟨d, hd9, rfl, rfl⟩ hinBb
              exact ihds hsub' _ (sameStatic_revealFuel hstat2 f _ _)
                (IH acc (x + d.1) (y + d.2) hstat2 hinv2 hreach') a2 b2 hab2 hr2
            · rw [if_neg hbound] at hr2
              exact ihds hsub' acc hstat2 hinv2 a2 b2 hab2 hr2
        exact hfold deltas9 (fun e he => he) (c.setRevealedTo x y true)
          hstatic1 hinv1 a b' hab hrev
      · rw [if_neg hz] at hrev
        exact hinv1 a b' hab hrev

end Nyanko

namespace Nyanko

theorem revealFuel_post (b : Board)
    (hbmarks : ∀ a b' : Int, inB b a b' → (b.grid a b').mark = 0) :
    ∀ (n f : Nat) (c : Board) (x y : Int),
      unrevealedCount c ≤ n → unrevealedCount c < f →
      sameStatic b c → inB b x y →
      (∀ a b' : Int, isZero b a b' → (c.grid a b').revealed = false →
          ((revealFuel f c x y).grid a b').revealed = true →
          ∀ nx ny : Int, isNbr a b' nx ny → inB b nx ny →
            ((revealFuel f c x y).grid nx ny).revealed = true)
        ∧ ((revealFuel f c x y).grid x y).revealed = true := by
  intro n
  induction n with
  | zero =>
    intro f c x y hn hf hstatic hinB
    have hrev : (c.grid x y).revealed = true := by
      have h0 : unrevealedCount c = 0 := by omega
      exact unrevealedCount_eq_zero_revealed h0 ((inB_of_sameStatic hstatic x y).mpr hinB)
    rw [revealFuel_guard (Or.inl hrev) f]
    constructor
    · intro a b' _ hrf hrt _ _ _ _
      rw [hrf] at hrt
      cases hrt
    · exact hrev
  | succ n IH =>
    intro f c x y hn hf hstatic hinB
    have hmarkc : (c.grid x y).mark = 0 := by
      obtain ⟨_, _, hfields⟩ := hstatic
      rw [(hfields x y).2.2]
      exact hbmarks x y hinB
    by_cases hrevc : (c.grid x y).revealed = true
    · rw [revealFuel_guard (Or.inl hrevc) f]
      constructor
      · intro a b' _ hrf hrt _ _ _ _
        rw [hrf] at hrt
        cases hrt
      · exact hrevc
    · rw [Bool.not_eq_true] at hrevc
      have hng : ¬((c.grid x y).revealed = true ∨ (c.grid x y).mark ≠ 0) := by
        intro hc
        rcases hc with hc | hc
        · rw [hrevc] at hc; cases hc
        · exact hc hmarkc
      have hinBc : inB c x y := (inB_of_sameStatic hstatic x y).mpr hinB
      have hcount1 : unrevealedCount (c.setRevealedTo x y true) + 1 = unrevealedCount c :=
        unrevealedCount_setRevealed hinBc hrevc
      obtain ⟨g, rfl⟩ : ∃ g, f = g + 1 := ⟨f - 1, by omega⟩
      simp only [revealFuel]
      rw [if_neg hng]
      have hstatic1 : sameStatic b (c.setRevealedTo x y true) :=
        sameStatic_set hstatic x y true
      by_cases hz : (c.grid x y).adjacent = 0 ∧ (c.grid x y).mine = false
      · rw [if_pos hz]
        have hQf : ∀ (ds : List (Int × Int)) (acc : Board),
            sameStatic b acc →
            unrevealedCount acc ≤ unrevealedCount (c.setRevealedTo x y true) →
            (∀ a2 b2 : Int, (acc.grid a2 b2).revealed = true →
              ((ds.foldl (fun acc d =>
                if inB acc (x + d.1) (y + d.2)
                then revealFuel g acc (x + d.1) (y + d.2) else acc) acc).grid
                  a2 b2).revealed = true)
            ∧ (∀ a2 b2 : Int, isZero b a2 b2 → (acc.grid a2 b2).revealed = false →
                ((ds.foldl (fun acc d =>
                  if inB acc (x + d.1) (y + d.2)
                  then revealFuel g acc (x + d.1) (y + d.2) else acc) acc).grid
                    a2 b2).revealed = true →
                ∀ nx ny : Int, isNbr a2 b2 nx ny → inB b nx ny →
                  ((ds.foldl (fun acc d =>
                    if inB acc (x + d.1) (y + d.2)
                    then revealFuel g acc (x + d.1) (y + d.2) else acc) acc).grid
                      nx ny).revealed = true)
            ∧ (∀ d ∈ ds, inB b (x + d.1) (y + d.2) →
                ((ds.foldl (fun acc d =>
                  if inB acc (x + d.1) (y + d.2)
                  then revealFuel g acc (x + d.1) (y + d.2) else acc) acc).grid
                    (x + d.1) (y + d.2)).revealed = true) := by
          intro ds
          induction ds with
          | nil =>
            intro acc _ _
            simp only [List.foldl_nil]
            refine ⟨fun a2 b2 h => h, ?_, ?_⟩
            · intro a2 b2 _ hrf hrt
              rw [hrf] at hrt
              cases hrt
            · intro d hd
              exact absurd hd (List.not_mem_nil _)
          | cons d ds ihds =>
            intro acc hstat2 hcnt2
            have hstep_static : sameStatic b
                (if inB acc (x + d.1) (y + d.2)
                then revealFuel g acc (x + d.1) (y + d.2) else acc) := by
              split
              · exact sameStatic_revealFuel hstat2 g _ _
              · exact hstat2
            have hstep_cnt : unrevealedCount
                (if inB acc (x + d.1) (y + d.2)
                then revealFuel g acc (x + d.1) (y + d.2) else acc)
                ≤ unrevealedCount acc := by
              split
              · exact unrevealedCount_revealFuel_le g acc _ _
              · exact le_refl _
            have hstep_mono : ∀ a2 b2 : Int, (acc.grid a2 b2).revealed = true →
                ((if inB acc (x + d.1) (y + d.2)
                then revealFuel g acc (x + d.1) (y + d.2) else acc).grid
                  a2 b2).revealed = true := by
              intro a2 b2 h
              split
              · exact revealFuel_mono g acc _ _ a2 b2 h
              · exact h
            obtain ⟨ha2, hb2, hc2⟩ := ihds _ hstep_static (le_trans hstep_cnt hcnt2)
            have hstep_post : inB b (x + d.1) (y + d.2) →
                ((∀ a2 b2 : Int, isZero b a2 b2 → (acc.grid a2 b2).revealed = false →
                  ((revealFuel g acc (x + d.1) (y + d.2)).grid a2 b2).revealed = true →
                  ∀ nx ny : Int, isNbr a2 b2 nx ny → inB b nx ny →
                    ((revealFuel g acc (x + d.1) (y + d.2)).grid nx ny).revealed = true)
                ∧ ((revealFuel g acc (x + d.1) (y + d.2)).grid
                    (x + d.1) (y + d.2)).revealed = true) := by
              intro hinb
              exact IH g acc (x + d.1) (y + d.2) (by omega) (by omega) hstat2 hinb
            rw [List.foldl_cons]
            refine ⟨?_, ?_, ?_⟩
            · intro a2 b2 h
              exact ha2 a2 b2 (hstep_mono a2 b2 h)
            · intro a2 b2 hzb hra hrres nx ny hnbr hinb
              by_cases hracc1 : ((if inB acc (x + d.1) (y + d.2)
                  then revealFuel g acc (x + d.1) (y + d.2) else acc).grid
                    a2 b2).revealed = true
              · have hnbrs : ((if inB acc (x + d.1) (y + d.2)
                    then revealFuel g acc (x + d.1) (y + d.2) else acc).grid
                      nx ny).revealed = true := by
                  rcases hbr : (decide (inB acc (x + d.1) (y + d.2))) with hfb | htb
                  · have hnin : ¬inB acc (x + d.1) (y + d.2) := of_decide_eq_false hbr
                    rw [if_neg hnin] at hracc1
                    rw [hracc1] at hra
                    cases hra
                  · have hisin : inB acc (x + d.1) (y + d.2) := of_decide_eq_true hbr
                    have hinb2 : inB b (x + d.1) (y + d.2) :=
                      (inB_of_sameStatic hstat2 _ _).mp hisin
                    rw [if_pos hisin] at hracc1 ⊢
                    exact ((hstep_post hinb2).1) a2 b2 hzb hra hracc1 nx ny hnbr hinb
                exact ha2 nx ny hnbrs
              · rw [Bool.not_eq_true] at hracc1
                exact hb2 a2 b2 hzb hracc1 hrres nx ny hnbr hinb
            · intro e he hinbe
              rcases List.mem_cons.mp he with rfl | hetail
              · have hisin : inB acc (x + e.1) (y + e.2) :=
                  (inB_of_sameStatic hstat2 _ _).mpr hinbe
                have : ((if inB acc (x + e.1) (y + e.2)
                    then revealFuel g acc (x + e.1) (y + e.2) else acc).grid
                      (x + e.1) (y + e.2)).revealed = true := by
                  rw [if_pos hisin]
                  exact (hstep_post hinbe).2
                exact ha2 _ _ this
              · exact hc2 e hetail hinbe
        obtain ⟨hA, hB, hC⟩ := hQf deltas9 (c.setRevealedTo x y true) hstatic1 (le_refl _)
        constructor
        · intro a b' hzb hra hrres nx ny hnbr hinb
          by_cases hp : a = x ∧ b' = y
          · obtain ⟨rfl, rfl⟩ := hp
            obtain ⟨d, hd9, hdx, hdy⟩ := hnbr
            rw [hdx, hdy]
            exact hC d hd9 (by rw [← hdx, ← hdy]; exact hinb)
          · have hrb1 : ((c.setRevealedTo x y true).grid a b').revealed = false := by
              rw [Board.setRevealedTo, set_grid_other _ _ _ _ hp]
              exact hra
            exact hB a b' hzb hrb1 hrres nx ny hnbr hinb
        · apply hA
          simp [Board.setRevealedTo, set_grid_self]
      · rw [if_neg hz]
        constructor
        · intro a b' hzb hra hrt nx ny _ _
          by_cases hp : a = x ∧ b' = y
          · obtain ⟨rfl, rfl⟩ := hp
            obtain ⟨_, _, hfields⟩ := hstatic
            obtain ⟨_, hmb, hab⟩ := hzb
            exact absurd ⟨by rw [(hfields a b').2.1]; exact hab,
              by rw [(hfields a b').1]; exact hmb⟩ hz
          · rw [Board.setRevealedTo, set_grid_other _ _ _ _ hp] at hrt
            rw [hra] at hrt
            cases hrt
        · simp [Board.setRevealedTo, set_grid_self]

end Nyanko

open Nyanko MS in
/-- C2 counterexample.  The claim quantifies over *every* board.  On
`Ex.flagged21` — a mine-free 2×1 board with correct adjacent counts
(all 0) whose cell `(1,0)` carries a flag — revealing the zero cell
`(0,0)` does **not** reveal `(1,0)`, although `(1,0)` is a non-mine
zero cell of the very connected zero region containing `(0,0)` (it is
its in-bounds neighbour): the mark short-circuits the flood fill, so
the revealed set is not "exactly the connected zero-adjacency region
plus its numbered boundary". -/
theorem C2_counterexample :
    (Ex.flagged21.grid 0 0).mine = false
    ∧ (Ex.flagged21.grid 0 0).adjacent = 0
    ∧ (Ex.flagged21.grid 1 0).mine = false
    ∧ (Ex.flagged21.grid 1 0).adjacent = 0
    ∧ Nyanko.inB Ex.flagged21 1 0
    ∧ Nyanko.isNbr 0 0 1 0
    ∧ ((Ex.flagged21.reveal 0 0).grid 1 0).revealed = false := by
  refine ⟨rfl, rfl, rfl, rfl, by decide, by decide, by decide⟩

/-! ## Flood-fill termination and fuel stability for minesweeper.py (C8) -/

namespace MS

@[simp] theorem setMask_xsize (s : MState) (x y : Int) (c : Char) :
    (s.setMask x y c).xsize = s.xsize := rfl

@[simp] theorem setMask_ysize (s : MState) (x y : Int) (c : Char) :
    (s.setMask x y c).ysize = s.ysize := rfl

@[simp] theorem setMask_vvram (s : MState) (x y : Int) (c : Char) :
    (s.setMask x y c).vvram = s.vvram := rfl

theorem setMask_self (s : MState) (x y : Int) (c : Char) :
    (s.setMask x y c).mask x y = c := by
  simp [MState.setMask]

theorem setMask_other (s : MState) (x y : Int) (c : Char) {a b : Int}
    (h : ¬(a = x ∧ b = y)) : (s.setMask x y c).mask a b = s.mask a b := by
  simp [MState.setMask, h]

theorem revealFuelM_static : ∀ (f : Nat) (s : MState) (x y : Int),
    (revealFuel f s x y).xsize = s.xsize
    ∧ (revealFuel f s x y).ysize = s.ysize
    ∧ ∀ a b' : Int, (revealFuel f s x y).vvram a b' = s.vvram a b'
  | 0, s, x, y => ⟨rfl, rfl, fun _ _ => rfl⟩
  | f + 1, s, x, y => by
    simp only [revealFuel]
    split
    · exact ⟨rfl, rfl, fun _ _ => rfl⟩
    · split
      · refine @Nyanko.foldl_invariant _ _
          (fun acc => acc.xsize = s.xsize ∧ acc.ysize = s.ysize ∧
            ∀ a b' : Int, acc.vvram a b' = s.vvram a b')
          _ ?_ Nyanko.deltas9 (s.setMask x y ' ') ⟨rfl, rfl, fun _ _ => rfl⟩
        intro acc d hacc
        dsimp only
        split
        · obtain ⟨hw, hh, hf⟩ := revealFuelM_static f acc (x + d.1) (y + d.2)
          obtain ⟨hw0, hh0, hf0⟩ := hacc
          exact ⟨hw.trans hw0, hh.trans hh0, fun a b' => (hf a b').trans (hf0 a b')⟩
        · exact hacc
      · exact ⟨rfl, rfl, fun _ _ => rfl⟩

theorem revealFuelM_mono : ∀ (f : Nat) (s : MState) (x y a b' : Int),
    s.mask a b' = ' ' → (revealFuel f s x y).mask a b' = ' '
  | 0, _, _, _, _, _, h => h
  | f + 1, s, x, y, a, b', h => by
    have hset : (s.setMask x y ' ').mask a b' = ' ' := by
      by_cases hp : a = x ∧ b' = y
      · obtain ⟨rfl, rfl⟩ := hp
        exact setMask_self s a b' ' '
      · rw [setMask_other _ _ _ _ hp]
        exact h
    simp only [revealFuel]
    split
    · exact hset
    · split
      · refine @Nyanko.foldl_invariant _ _
          (fun acc => acc.mask a b' = ' ')
          _ ?_ Nyanko.deltas9 (s.setMask x y ' ') hset
        intro acc d hacc
        dsimp only
        split
        · exact revealFuelM_mono f acc (x + d.1) (y + d.2) a b' hacc
        · exact hacc
      · exact h

theorem hiddenCount_le_of_mono {s t : MState} (hw : t.xsize = s.xsize)
    (hh : t.ysize = s.ysize)
    (hmono : ∀ a b' : Int, s.mask a b' = ' ' → t.mask a b' = ' ') :
    hiddenCount t ≤ hiddenCount s := by
  rw [hiddenCount, hiddenCount, hw, hh]
  apply List.countP_mono_left
  rintro ⟨a, b'⟩ _ h
  simp only [Bool.not_eq_eq_eq_not, Bool.not_true, beq_eq_false_iff_ne] at h ⊢
  intro hc
  exact h (hmono a b' hc)

theorem hiddenCount_revealFuelM_le (f : Nat) (s : MState) (x y : Int) :
    hiddenCount (revealFuel f s x y) ≤ hiddenCount s := by
  obtain ⟨hw, hh, _⟩ := revealFuelM_static f s x y
  exact hiddenCount_le_of_mono hw hh (revealFuelM_mono f s x y)

theorem hiddenCount_setMask {s : MState} {x y : Int} (hin : inBM s x y)
    (hhid : s.mask x y ≠ ' ') :
    hiddenCount (s.setMask x y ' ') + 1 = hiddenCount s := by
  have key := Nyanko.countP_flip_one (l := Nyanko.coordList s.xsize s.ysize)
    (p := fun p => !(s.mask p.1 p.2 == ' '))
    (q := fun p => !((s.setMask x y ' ').mask p.1 p.2 == ' '))
    (Nyanko.nodup_coordList _ _) (e := (x, y)) (mem_coordList_iff_inBM.mpr hin)
    (by simp [hhid])
    (by simp [setMask_self])
    (by
      rintro ⟨a, c'⟩ hac hne
      have hna : ¬(a = x ∧ c' = y) := by
        intro hc
        exact hne (Prod.ext hc.1 hc.2)
      simp [setMask_other _ _ _ _ hna])
  simp only [hiddenCount, setMask_xsize, setMask_ysize]
  omega

theorem hiddenCount_pos {s : MState} {x y : Int} (hin : inBM s x y)
    (hhid : s.mask x y ≠ ' ') : 1 ≤ hiddenCount s := by
  rw [hiddenCount]
  have : 0 < (Nyanko.coordList s.xsize s.ysize).countP
      fun p => !(s.mask p.1 p.2 == ' ') :=
    List.countP_pos_iff.mpr ⟨(x, y), mem_coordList_iff_inBM.mpr hin, by simp [hhid]⟩
  omega

theorem hiddenCount_le_size (s : MState) :
    hiddenCount s ≤ s.xsize * s.ysize := by
  rw [hiddenCount, ← Nyanko.length_coordList s.xsize s.ysize]
  exact List.countP_le_length _

theorem revealFuelM_guard {s : MState} {x y : Int} (h : s.mask x y = ' ') :
    ∀ f : Nat, revealFuel f s x y = s
  | 0 => rfl
  | f + 1 => by
    simp only [revealFuel]
    rw [if_neg (by simp [h]), if_neg (by simp [h])]

theorem hiddenCount_eq_zero_revealed {s : MState} (h : hiddenCount s = 0)
    {x y : Int} (hin : inBM s x y) : s.mask x y = ' ' := by
  rw [hiddenCount] at h
  have := List.countP_eq_zero.mp h (x, y) (mem_coordList_iff_inBM.mpr hin)
  simpa using this

theorem revealFuelM_stable_aux : ∀ (n : Nat) (s : MState) (x y : Int) (f₁ f₂ : Nat),
    hiddenCount s ≤ n → hiddenCount s ≤ f₁ → hiddenCount s ≤ f₂ →
    inBM s x y → revealFuel f₁ s x y = revealFuel f₂ s x y := by
  intro n
  induction n with
  | zero =>
    intro s x y f₁ f₂ hn _ _ hin
    have hrev : s.mask x y = ' ' :=
      hiddenCount_eq_zero_revealed (by omega) hin
    rw [revealFuelM_guard hrev f₁, revealFuelM_guard hrev f₂]
  | succ n IH =>
    intro s x y f₁ f₂ hn h1 h2 hin
    by_cases hmask : s.mask x y = ' '
    · rw [revealFuelM_guard hmask f₁, revealFuelM_guard hmask f₂]
    · have hpos : 1 ≤ hiddenCount s := hiddenCount_pos hin hmask
      obtain ⟨g₁, rfl⟩ : ∃ g, f₁ = g + 1 := ⟨f₁ - 1, by omega⟩
      obtain ⟨g₂, rfl⟩ : ∃ g, f₂ = g + 1 := ⟨f₂ - 1, by omega⟩
      have hceq : hiddenCount (s.setMask x y ' ') + 1 = hiddenCount s :=
        hiddenCount_setMask hin hmask
      simp only [revealFuel]
      by_cases hv : s.vvram x y = VCell.num 0
      · have hng : ¬(s.vvram x y ≠ VCell.num 0 ∧ s.mask x y ≠ ' ') := by
          intro hc
          exact hc.1 hv
        rw [if_neg hng, if_neg hng, if_pos ⟨hv, hmask⟩, if_pos ⟨hv, hmask⟩]
        have hfold : ∀ (ds : List (Int × Int)) (acc : MState),
            acc.xsize = s.xsize → acc.ysize = s.ysize →
            hiddenCount acc ≤ hiddenCount (s.setMask x y ' ') →
            ds.foldl (fun acc d =>
              if inBM acc (x + d.1) (y + d.2) then revealFuel g₁ acc (x + d.1) (y + d.2)
              else acc) acc
            = ds.foldl (fun acc d =>
              if inBM acc (x + d.1) (y + d.2) then revealFuel g₂ acc (x + d.1) (y + d.2)
              else acc) acc := by
          intro ds
          induction ds with
          | nil => intro acc _ _ _; rfl
          | cons d ds ihds =>
            intro acc hw hh hcnt
            rw [List.foldl_cons, List.foldl_cons]
            have hstep : (if inBM acc (x + d.1) (y + d.2)
                then revealFuel g₁ acc (x + d.1) (y + d.2) else acc)
                = (if inBM acc (x + d.1) (y + d.2)
                then revealFuel g₂ acc (x + d.1) (y + d.2) else acc) := by
              split
              · exact IH acc (x + d.1) (y + d.2) g₁ g₂ (by omega) (by omega) (by omega) ‹_›
              · rfl
            rw [hstep]
            obtain ⟨hw2, hh2, _⟩ := revealFuelM_static g₂ acc (x + d.1) (y + d.2)
            have hle : hiddenCount (if inBM acc (x + d.1) (y + d.2)
                then revealFuel g₂ acc (x + d.1) (y + d.2) else acc)
                ≤ hiddenCount acc := by
              split
              · exact hiddenCount_revealFuelM_le g₂ acc (x + d.1) (y + d.2)
              · exact le_refl _
            refine ihds _ ?_ ?_ (le_trans hle hcnt)
            · split
              · rw [hw2, hw]
              · exact hw
            · split
              · rw [hh2, hh]
              · exact hh
        exact hfold Nyanko.deltas9 (s.setMask x y ' ') rfl rfl (le_refl _)
      · rw [if_pos ⟨hv, hmask⟩, if_pos ⟨hv, hmask⟩]

theorem revealFuelM_stable {s : MState} {x y : Int} (hin : inBM s x y)
    {f₁ f₂ : Nat} (h1 : hiddenCount s ≤ f₁) (h2 : hiddenCount s ≤ f₂) :
    revealFuel f₁ s x y = revealFuel f₂ s x y :=
  revealFuelM_stable_aux (hiddenCount s) s x y f₁ f₂ (le_refl _) h1 h2 hin

theorem hiddenCount_revealM_lt {s : MState} {x y : Int} (hin : inBM s x y)
    (hhid : s.mask x y ≠ ' ') :
    hiddenCount (reveal s x y) < hiddenCount s := by
  have hceq : hiddenCount (s.setMask x y ' ') + 1 = hiddenCount s :=
    hiddenCount_setMask hin hhid
  rw [reveal]
  simp only [revealFuel]
  by_cases hv : s.vvram x y = VCell.num 0
  · have hng : ¬(s.vvram x y ≠ VCell.num 0 ∧ s.mask x y ≠ ' ') := by
      intro hc
      exact hc.1 hv
    rw [if_neg hng, if_pos ⟨hv, hhid⟩]
    have : hiddenCount
        (Nyanko.deltas9.foldl (fun acc d =>
          if inBM acc (x + d.1) (y + d.2)
          then revealFuel (s.xsize * s.ysize) acc (x + d.1) (y + d.2) else acc)
          (s.setMask x y ' '))
        ≤ hiddenCount (s.setMask x y ' ') := by
      refine @Nyanko.foldl_invariant _ _
        (fun acc => hiddenCount acc ≤ hiddenCount (s.setMask x y ' '))
        _ ?_ Nyanko.deltas9 (s.setMask x y ' ') (le_refl _)
      intro acc d hacc
      dsimp only
      split
      · exact le_trans (hiddenCount_revealFuelM_le _ acc _ _) hacc
      · exact hacc
    omega
  · rw [if_pos ⟨hv, hhid⟩]
    omega

end MS

open Nyanko MS in
/-- C8 confirmed, for both implementations.  Each fuelled embedding of
the recursive flood fill is independent of the fuel once the fuel
reaches the number of unrevealed cells — in particular the
`width*height + 1` fuel used by `Board.reveal` resp. `MS.reveal` always
suffices, so the recursion terminates with depth bounded by the grid
size.  The well-foundedness argument of the claim is the last conjunct
of each half: a non-short-circuiting call strictly decreases the count
of unrevealed cells, and a call on an already-revealed cell
short-circuits (`revealFuel_guard` / `revealFuelM_guard`), here stated
as the reveal being the identity on such cells. -/
theorem C8_confirmed :
    (∀ (b : Nyanko.Board) (x y : Int), Nyanko.inB b x y →
      (∀ fuel : Nat, Nyanko.unrevealedCount b ≤ fuel →
        Nyanko.revealFuel fuel b x y = b.reveal x y)
      ∧ Nyanko.unrevealedCount b ≤ b.width * b.height
      ∧ ((b.grid x y).revealed = true → b.reveal x y = b)
      ∧ ((b.grid x y).revealed = false → (b.grid x y).mark = 0 →
          Nyanko.unrevealedCount (b.reveal x y) < Nyanko.unrevealedCount b))
    ∧ (∀ (s : MS.MState) (x y : Int), MS.inBM s x y →
      (∀ fuel : Nat, MS.hiddenCount s ≤ fuel →
        MS.revealFuel fuel s x y = MS.reveal s x y)
      ∧ MS.hiddenCount s ≤ s.xsize * s.ysize
      ∧ (s.mask x y = ' ' → MS.reveal s x y = s)
      ∧ (s.mask x y ≠ ' ' →
          MS.hiddenCount (MS.reveal s x y) < MS.hiddenCount s)) := by
  constructor
  · intro b x y hin
    refine ⟨?_, unrevealedCount_le_size b, ?_, ?_⟩
    · intro fuel hf
      exact revealFuel_stable hin hf (by
        have := unrevealedCount_le_size b
        omega)
    · intro hrev
      exact revealFuel_guard (Or.inl hrev) _
    · exact unrevealedCount_reveal_lt hin
  · intro s x y hin
    refine ⟨?_, MS.hiddenCount_le_size s, ?_, ?_⟩
    · intro fuel hf
      exact MS.revealFuelM_stable hin hf (by
        have := MS.hiddenCount_le_size s
        omega)
    · intro hrev
      exact MS.revealFuelM_guard hrev _
    · exact MS.hiddenCount_revealM_lt hin

open Nyanko MS in
/-- C8 witness: on the fresh 2×2 boards of either implementation, fuel
4 (= the number of unrevealed cells) already computes the reveal, and a
non-short-circuiting reveal strictly decreases the unrevealed count. -/
theorem C8_witness :
    (Nyanko.revealFuel 4 Ex.fresh22 0 0 = Ex.fresh22.reveal 0 0
      ∧ unrevealedCount (Ex.fresh22.reveal 0 0) < unrevealedCount Ex.fresh22)
    ∧ (MS.revealFuel 4 Ex.ms22 1 1 = MS.reveal Ex.ms22 1 1
      ∧ MS.hiddenCount (MS.reveal Ex.ms22 1 1) < MS.hiddenCount Ex.ms22) :=
  ⟨⟨((C8_confirmed.1 Ex.fresh22 0 0 (by decide)).1) 4 (by decide),
    ((C8_confirmed.1 Ex.fresh22 0 0 (by decide)).2.2.2) (by decide) (by decide)⟩,
   ⟨((C8_confirmed.2 Ex.ms22 1 1 (by decide)).1) 4 (by decide),
    ((C8_confirmed.2 Ex.ms22 1 1 (by decide)).2.2.2) (by decide)⟩⟩

/-! ## Flood-fill exactness for minesweeper.py (C2) -/

namespace MS

theorem noneRevealedB_iff {s : MState} :
    noneRevealedB s = true ↔ ∀ x y : Int, inBM s x y → s.mask x y ≠ ' ' := by
  rw [noneRevealedB, List.all_eq_true]
  constructor
  · intro h x y hin
    have := h (x, y) (mem_coordList_iff_inBM.mpr hin)
    simpa using this
  · rintro h ⟨x, y⟩ hp
    have := h x y (mem_coordList_iff_inBM.mp hp)
    simpa using this

theorem msAdjOKB_iff {s : MState} :
    msAdjOKB s = true ↔
      ∀ x y : Int, inBM s x y → s.vvram x y ≠ VCell.mine →
        s.vvram x y = VCell.num (vvCount8 s x y) := by
  rw [msAdjOKB, List.all_eq_true]
  constructor
  · intro h x y hin hnm
    have := h (x, y) (mem_coordList_iff_inBM.mpr hin)
    simp only [Bool.or_eq_true, beq_iff_eq] at this
    rcases this with h1 | h1
    · exact absurd h1 hnm
    · exact h1
  · rintro h ⟨x, y⟩ hp
    have hin := mem_coordList_iff_inBM.mp hp
    simp only [Bool.or_eq_true, beq_iff_eq]
    by_cases hm : s.vvram x y = VCell.mine
    · exact Or.inl hm
    · exact Or.inr (h x y hin hm)

theorem vvCount9_zero_nbrs {s : MState} {x y : Int} (h : vvCount9 s x y = 0) :
    ∀ d ∈ Nyanko.deltas9, inBM s (x + d.1) (y + d.2) →
      s.vvram (x + d.1) (y + d.2) ≠ VCell.mine := by
  intro d hd hbounds hmine
  have hnp := List.countP_eq_zero.mp h d hd
  apply hnp
  simp only [Bool.and_eq_true, decide_eq_true_eq, beq_iff_eq]
  exact ⟨hbounds, hmine⟩

theorem mzreach_inBM {s : MState} {x0 y0 : Int} (hin0 : inBM s x0 y0) :
    ∀ {x y : Int}, mzreach s x0 y0 x y → inBM s x y := by
  intro x y h
  induction h with
  | base => exact hin0
  | step _ _ _ hin _ => exact hin

theorem mzreach_not_mine {s : MState} {x0 y0 : Int}
    (hadj : ∀ x y : Int, inBM s x y → s.vvram x y ≠ VCell.mine →
      s.vvram x y = VCell.num (vvCount8 s x y))
    (hz0 : s.vvram x0 y0 = VCell.num 0) :
    ∀ {x y : Int}, mzreach s x0 y0 x y → s.vvram x y ≠ VCell.mine := by
  intro x y h
  induction h with
  | base =>
    rw [hz0]
    simp
  | @step x1 y1 nx ny hr hz hnbr hin ih =>
    obtain ⟨hinz, hvz⟩ := hz
    have hnmz : s.vvram x1 y1 ≠ VCell.mine := by
      rw [hvz]
      simp
    have h8 : vvCount8 s x1 y1 = 0 := by
      have := hadj x1 y1 hinz hnmz
      rw [hvz] at this
      exact (VCell.num.injEq .. ▸ this.symm)
    have h9 : vvCount9 s x1 y1 = 0 := by
      rw [vvCount9_eq_vvCount8 s x1 y1 hnmz, h8]
    obtain ⟨d, hd, hdx, hdy⟩ := hnbr
    rw [hdx, hdy]
    exact vvCount9_zero_nbrs h9 d hd (by rw [← hdx, ← hdy]; exact hin)

theorem sameVv_refl (s : MState) : sameVv s s := ⟨rfl, rfl, fun _ _ => rfl⟩

theorem sameVv_setMask {s c : MState} (h : sameVv s c) (x y : Int) (ch : Char) :
    sameVv s (c.setMask x y ch) := by
  obtain ⟨hw, hh, hf⟩ := h
  exact ⟨hw, hh, fun a b' => hf a b'⟩

theorem sameVv_revealFuelM {s c : MState} (h : sameVv s c)
    (f : Nat) (x y : Int) : sameVv s (revealFuel f c x y) := by
  obtain ⟨hw, hh, hf⟩ := h
  obtain ⟨hw2, hh2, hf2⟩ := revealFuelM_static f c x y
  exact ⟨hw.trans hw2.symm, hh.trans hh2.symm,
    fun a b' => (hf2 a b').trans (hf a b')⟩

theorem inBM_of_sameVv {s c : MState} (h : sameVv s c) (x y : Int) :
    inBM c x y ↔ inBM s x y := by
  obtain ⟨hw, hh, _⟩ := h
  rw [inBM, inBM, hw, hh]

theorem revealM_sound (s : MState) (x0 y0 : Int) (hin0 : inBM s x0 y0) :
    ∀ (f : Nat) (c : MState) (x y : Int),
      sameVv s c →
      (∀ a b' : Int, inBM s a b' → c.mask a b' = ' ' →
        mzreach s x0 y0 a b' ∨ s.mask a b' = ' ') →
      mzreach s x0 y0 x y →
      ∀ a b' : Int, inBM s a b' → (revealFuel f c x y).mask a b' = ' ' →
        mzreach s x0 y0 a b' ∨ s.mask a b' = ' ' := by
  intro f
  induction f with
  | zero =>
    intro c x y _ hinv _ a b' hab hrev
    exact hinv a b' hab hrev
  | succ f IH =>
    intro c x y hstatic hinv hreach a b' hab hrev
    simp only [revealFuel] at hrev
    have hinv1 : ∀ a2 b2 : Int, inBM s a2 b2 →
        (c.setMask x y ' ').mask a2 b2 = ' ' →
        mzreach s x0 y0 a2 b2 ∨ s.mask a2 b2 = ' ' := by
      intro a2 b2 hab2 hrev2
      by_cases hp : a2 = x ∧ b2 = y
      · obtain ⟨rfl, rfl⟩ := hp
        exact Or.inl hreach
      · rw [setMask_other _ _ _ _ hp] at hrev2
        exact hinv a2 b2 hab2 hrev2
    by_cases hmask : c.mask x y = ' '
    · rw [if_neg (by simp [hmask]), if_neg (by simp [hmask])] at hrev
      exact hinv a b' hab hrev
    · by_cases hv : c.vvram x y = VCell.num 0
      · rw [if_neg (fun hc => hc.1 hv), if_pos ⟨hv, hmask⟩] at hrev
        have hinBxy : inBM s x y := mzreach_inBM hin0 hreach
        have hfields := hstatic.2.2
        have hzb : isZeroM s x y := ⟨hinBxy, by rw [← hfields x y]; exact hv⟩
        have hfold : ∀ (ds : List (Int × Int)), (∀ e ∈ ds, e ∈ Nyanko.deltas9) →
            ∀ (acc : MState), sameVv s acc →
            (∀ a2 b2 : Int, inBM s a2 b2 → acc.mask a2 b2 = ' ' →
              mzreach s x0 y0 a2 b2 ∨ s.mask a2 b2 = ' ') →
            ∀ a2 b2 : Int, inBM s a2 b2 →
              ((ds.foldl (fun acc d =>
                if inBM acc (x + d.1) (y + d.2)
                then revealFuel f acc (x + d.1) (y + d.2)
                else acc) acc).mask a2 b2) = ' ' →
              mzreach s x0 y0 a2 b2 ∨ s.mask a2 b2 = ' ' := by
          intro ds
          induction ds with
          | nil =>
            intro _ acc _ hinv2 a2 b2 hab2 hr2
            exact hinv2 a2 b2 hab2 hr2
          | cons d ds ihds =>
            intro hsub acc hstat2 hinv2 a2 b2 hab2 hr2
            rw [List.foldl_cons] at hr2
            have hd9 : d ∈ Nyanko.deltas9 := hsub d (List.mem_cons_self _ _)
            have hsub' : ∀ e ∈ ds, e ∈ Nyanko.deltas9 :=
              fun e he => hsub e (List.mem_cons_of_mem _ he)
            by_cases hbound : inBM acc (x + d.1) (y + d.2)
            · rw [if_pos hbound] at hr2
              have hinBb : inBM s (x + d.1) (y + d.2) :=
                (inBM_of_sameVv hstat2 _ _).mp hbound
              have hreach' : mzreach s x0 y0 (x + d.1) (y + d.2) :=
                mzreach.step hreach hzb ⟨d, hd9, rfl, rfl⟩ hinBb
              exact ihds hsub' _ (sameVv_revealFuelM hstat2 f _ _)
                (IH acc (x + d.1) (y + d.2) hstat2 hinv2 hreach') a2 b2 hab2 hr2
            · rw [if_neg hbound] at hr2
              exact ihds hsub' acc hstat2 hinv2 a2 b2 hab2 hr2
        exact hfold Nyanko.deltas9 (fun e he => he) (c.setMask x y ' ')
          (sameVv_setMask hstatic x y ' ') hinv1 a b' hab hrev
      · rw [if_pos ⟨hv, hmask⟩] at hrev
        exact hinv1 a b' hab hrev

end MS

namespace MS

theorem revealFuelM_post (s : MState) :
    ∀ (n f : Nat) (c : MState) (x y : Int),
      hiddenCount c ≤ n → hiddenCount c < f →
      sameVv s c → inBM s x y →
      (∀ a b' : Int, isZeroM s a b' → c.mask a b' ≠ ' ' →
          (revealFuel f c x y).mask a b' = ' ' →
          ∀ nx ny : Int, Nyanko.isNbr a b' nx ny → inBM s nx ny →
            (revealFuel f c x y).mask nx ny = ' ')
        ∧ (revealFuel f c x y).mask x y = ' ' := by
  intro n
  induction n with
  | zero =>
    intro f c x y hn hf hstatic hinB
    have hrev : c.mask x y = ' ' := by
      have h0 : hiddenCount c = 0 := by omega
      exact hiddenCount_eq_zero_revealed h0 ((inBM_of_sameVv hstatic x y).mpr hinB)
    rw [revealFuelM_guard hrev f]
    constructor
    · intro a b' _ hrf hrt _ _ _ _
      exact absurd hrt hrf
    · exact hrev
  | succ n IH =>
    intro f c x y hn hf hstatic hinB
    by_cases hrevc : c.mask x y = ' '
    · rw [revealFuelM_guard hrevc f]
      constructor
      · intro a b' _ hrf hrt _ _ _ _
        exact absurd hrt hrf
      · exact hrevc
    · have hinBc : inBM c x y := (inBM_of_sameVv hstatic x y).mpr hinB
      have hcount1 : hiddenCount (c.setMask x y ' ') + 1 = hiddenCount c :=
        hiddenCount_setMask hinBc hrevc
      obtain ⟨g, rfl⟩ : ∃ g, f = g + 1 := ⟨f - 1, by omega⟩
      simp only [revealFuel]
      by_cases hv : c.vvram x y = VCell.num 0
      · rw [if_neg (fun hc => hc.1 hv), if_pos ⟨hv, hrevc⟩]
        have hQf : ∀ (ds : List (Int × Int)) (acc : MState),
            sameVv s acc →
            hiddenCount acc ≤ hiddenCount (c.setMask x y ' ') →
            (∀ a2 b2 : Int, acc.mask a2 b2 = ' ' →
              ((ds.foldl (fun acc d =>
                if inBM acc (x + d.1) (y + d.2)
                then revealFuel g acc (x + d.1) (y + d.2) else acc) acc).mask
                  a2 b2) = ' ')
            ∧ (∀ a2 b2 : Int, isZeroM s a2 b2 → acc.mask a2 b2 ≠ ' ' →
                ((ds.foldl (fun acc d =>
                  if inBM acc (x + d.1) (y + d.2)
                  then revealFuel g acc (x + d.1) (y + d.2) else acc) acc).mask
                    a2 b2) = ' ' →
                ∀ nx ny : Int, Nyanko.isNbr a2 b2 nx ny → inBM s nx ny →
                  ((ds.foldl (fun acc d =>
                    if inBM acc (x + d.1) (y + d.2)
                    then revealFuel g acc (x + d.1) (y + d.2) else acc) acc).mask
                      nx ny) = ' ')
            ∧ (∀ d ∈ ds, inBM s (x + d.1) (y + d.2) →
                ((ds.foldl (fun acc d =>
                  if inBM acc (x + d.1) (y + d.2)
                  then revealFuel g acc (x + d.1) (y + d.2) else acc) acc).mask
                    (x + d.1) (y + d.2)) = ' ') := by
          intro ds
          induction ds with
          | nil =>
            intro acc _ _
            simp only [List.foldl_nil]
            refine ⟨fun a2 b2 h => h, ?_, ?_⟩
            · intro a2 b2 _ hrf hrt
              exact absurd hrt hrf
            · intro d hd
              exact absurd hd (List.not_mem_nil _)
          | cons d ds ihds =>
            intro acc hstat2 hcnt2
            have hstep_static : sameVv s
                (if inBM acc (x + d.1) (y + d.2)
                then revealFuel g acc (x + d.1) (y + d.2) else acc) := by
              split
              · exact sameVv_revealFuelM hstat2 g _ _
              · exact hstat2
            have hstep_cnt : hiddenCount
                (if inBM acc (x + d.1) (y + d.2)
                then revealFuel g acc (x + d.1) (y + d.2) else acc)
                ≤ hiddenCount acc := by
              split
              · exact hiddenCount_revealFuelM_le g acc _ _
              · exact le_refl _
            have hstep_mono : ∀ a2 b2 : Int, acc.mask a2 b2 = ' ' →
                ((if inBM acc (x + d.1) (y + d.2)
                then revealFuel g acc (x + d.1) (y + d.2) else acc).mask
                  a2 b2) = ' ' := by
              intro a2 b2 h
              split
              · exact revealFuelM_mono g acc _ _ a2 b2 h
              · exact h
            obtain ⟨ha2, hb2, hc2⟩ := ihds _ hstep_static (le_trans hstep_cnt hcnt2)
            have hstep_post : inBM s (x + d.1) (y + d.2) →
                ((∀ a2 b2 : Int, isZeroM s a2 b2 → acc.mask a2 b2 ≠ ' ' →
                  ((revealFuel g acc (x + d.1) (y + d.2)).mask a2 b2) = ' ' →
                  ∀ nx ny : Int, Nyanko.isNbr a2 b2 nx ny → inBM s nx ny →
                    ((revealFuel g acc (x + d.1) (y + d.2)).mask nx ny) = ' ')
                ∧ ((revealFuel g acc (x + d.1) (y + d.2)).mask
                    (x + d.1) (y + d.2)) = ' ') := by
              intro hinb
              exact IH g acc (x + d.1) (y + d.2) (by omega) (by omega) hstat2 hinb
            rw [List.foldl_cons]
            refine ⟨?_, ?_, ?_⟩
            · intro a2 b2 h
              exact ha2 a2 b2 (hstep_mono a2 b2 h)
            · intro a2 b2 hzb hra hrres nx ny hnbr hinb
              by_cases hracc1 : ((if inBM acc (x + d.1) (y + d.2)
                  then revealFuel g acc (x + d.1) (y + d.2) else acc).mask
                    a2 b2) = ' '
              · have hnbrs : ((if inBM acc (x + d.1) (y + d.2)
                    then revealFuel g acc (x + d.1) (y + d.2) else acc).mask
                      nx ny) = ' ' := by
                  rcases hbr : (decide (inBM acc (x + d.1) (y + d.2))) with hfb | htb
                  · have hnin : ¬inBM acc (x + d.1) (y + d.2) := of_decide_eq_false hbr
                    rw [if_neg hnin] at hracc1
                    exact absurd hracc1 hra
                  · have hisin : inBM acc (x + d.1) (y + d.2) := of_decide_eq_true hbr
                    have hinb2 : inBM s (x + d.1) (y + d.2) :=
                      (inBM_of_sameVv hstat2 _ _).mp hisin
                    rw [if_pos hisin] at hracc1 ⊢
                    exact ((hstep_post hinb2).1) a2 b2 hzb hra hracc1 nx ny hnbr hinb
                exact ha2 nx ny hnbrs
              · exact hb2 a2 b2 hzb hracc1 hrres nx ny hnbr hinb
            · intro e he hinbe
              rcases List.mem_cons.mp he with rfl | hetail
              · have hisin : inBM acc (x + e.1) (y + e.2) :=
                  (inBM_of_sameVv hstat2 _ _).mpr hinbe
                have : ((if inBM acc (x + e.1) (y + e.2)
                    then revealFuel g acc (x + e.1) (y + e.2) else acc).mask
                      (x + e.1) (y + e.2)) = ' ' := by
                  rw [if_pos hisin]
                  exact (hstep_post hinbe).2
                exact ha2 _ _ this
              · exact hc2 e hetail hinbe
        obtain ⟨hA, hB, hC⟩ := hQf Nyanko.deltas9 (c.setMask x y ' ')
          (sameVv_setMask hstatic x y ' ') (le_refl _)
        constructor
        · intro a b' hzb hra hrres nx ny hnbr hinb
          by_cases hp : a = x ∧ b' = y
          · obtain ⟨rfl, rfl⟩ := hp
            obtain ⟨d, hd9, hdx, hdy⟩ := hnbr
            rw [hdx, hdy]
            exact hC d hd9 (by rw [← hdx, ← hdy]; exact hinb)
          · have hrb1 : (c.setMask x y ' ').mask a b' ≠ ' ' := by
              rw [setMask_other _ _ _ _ hp]
              exact hra
            exact hB a b' hzb hrb1 hrres nx ny hnbr hinb
        · apply hA
          exact setMask_self c x y ' '
      · rw [if_pos ⟨hv, hrevc⟩]
        constructor
        · intro a b' hzb hra hrt nx ny _ _
          by_cases hp : a = x ∧ b' = y
          · obtain ⟨rfl, rfl⟩ := hp
            obtain ⟨_, hvz⟩ := hzb
            have hfields := hstatic.2.2
            exact absurd (by rw [hfields a b']; exact hvz) hv
          · rw [setMask_other _ _ _ _ hp] at hrt
            exact absurd hrt hra
        · exact setMask_self c x y ' '

end MS

open Nyanko MS in
/-- C2 amended, for both implementations.  nyankosweeper: on a board
with correct adjacent counts (`adjOKB`) where no cell is yet revealed
or marked (`freshB`), one call of `Board.reveal` on an in-bounds
non-mine cell with `adjacent = 0` sets `revealed = true` on exactly the
cells `zreach` describes — the connected zero-adjacency region of the
start together with the (numbered) cells bordering it — and on no mine
cell.  minesweeper.py: on a state with correct neighbour counts
(`msAdjOKB`) where no cell is yet revealed (`noneRevealedB`; marks are
irrelevant since its reveal ignores them), one call of `MS.reveal` on
an in-bounds zero cell sets `mask = ' '` on exactly the cells `mzreach`
describes, and on no mine cell. -/
theorem C2_amended :
    (∀ (b : Nyanko.Board) (x0 y0 : Int),
      freshB b = true → adjOKB b = true → Nyanko.inB b x0 y0 →
      (b.grid x0 y0).mine = false → (b.grid x0 y0).adjacent = 0 →
      (∀ x y : Int, Nyanko.inB b x y →
        (((b.reveal x0 y0).grid x y).revealed = true ↔ zreach b x0 y0 x y))
      ∧ ∀ x y : Int, Nyanko.inB b x y → (b.grid x y).mine = true →
          ((b.reveal x0 y0).grid x y).revealed = false)
    ∧ (∀ (s : MS.MState) (x0 y0 : Int),
      MS.noneRevealedB s = true → MS.msAdjOKB s = true → MS.inBM s x0 y0 →
      s.vvram x0 y0 = MS.VCell.num 0 →
      (∀ x y : Int, MS.inBM s x y →
        ((MS.reveal s x0 y0).mask x y = ' ' ↔ MS.mzreach s x0 y0 x y))
      ∧ ∀ x y : Int, MS.inBM s x y → s.vvram x y = MS.VCell.mine →
          (MS.reveal s x0 y0).mask x y ≠ ' ') := by
  constructor
  · intro b x0 y0 hfresh hadj hin hmine hzero
    have hfreshP := freshB_iff.mp hfresh
    have hadjP := adjOKB_iff.mp hadj
    have hmarks : ∀ a b' : Int, inB b a b' → (b.grid a b').mark = 0 :=
      fun a b' h => (hfreshP a b' h).2
    have hnorev : ∀ a b' : Int, inB b a b' → (b.grid a b').revealed = false :=
      fun a b' h => (hfreshP a b' h).1
    have hsound : ∀ x y : Int, inB b x y →
        ((b.reveal x0 y0).grid x y).revealed = true → zreach b x0 y0 x y := by
      intro x y hxy hrev
      have := reveal_sound b x0 y0 hin (b.width * b.height + 1) b x0 y0
        (sameStatic_refl b)
        (fun a b' hab hr => Or.inr hr)
        zreach.base x y hxy hrev
      rcases this with h | h
      · exact h
      · rw [hnorev x y hxy] at h
        cases h
    have hpost := revealFuel_post b hmarks (unrevealedCount b) (b.width * b.height + 1)
      b x0 y0 (le_refl _) (by have := unrevealedCount_le_size b; omega)
      (sameStatic_refl b) hin
    have hcomplete : ∀ x y : Int, zreach b x0 y0 x y →
        ((b.reveal x0 y0).grid x y).revealed = true := by
      intro x y h
      induction h with
      | base => exact hpost.2
      | step hr hzb hnbr hinb ih =>
        exact hpost.1 _ _ hzb (hnorev _ _ hzb.1) ih _ _ hnbr hinb
    refine ⟨fun x y hxy => ⟨hsound x y hxy, hcomplete x y⟩, ?_⟩
    intro x y hxy hm
    rcases hres : ((b.reveal x0 y0).grid x y).revealed with hf | ht
    · rfl
    · have hz := hsound x y hxy hres
      have := zreach_not_mine hadjP hmine hz
      rw [hm] at this
      cases this
  · intro s x0 y0 hfresh hadj hin hzero
    have hnorev : ∀ a b' : Int, MS.inBM s a b' → s.mask a b' ≠ ' ' :=
      fun a b' h => (MS.noneRevealedB_iff.mp hfresh) a b' h
    have hadjP := MS.msAdjOKB_iff.mp hadj
    have hsound : ∀ x y : Int, MS.inBM s x y →
        (MS.reveal s x0 y0).mask x y = ' ' → MS.mzreach s x0 y0 x y := by
      intro x y hxy hrev
      have := MS.revealM_sound s x0 y0 hin (s.xsize * s.ysize + 1) s x0 y0
        (MS.sameVv_refl s)
        (fun a b' hab hr => Or.inr hr)
        MS.mzreach.base x y hxy hrev
      rcases this with h | h
      · exact h
      · exact absurd h (hnorev x y hxy)
    have hpost := MS.revealFuelM_post s (MS.hiddenCount s) (s.xsize * s.ysize + 1)
      s x0 y0 (le_refl _) (by have := MS.hiddenCount_le_size s; omega)
      (MS.sameVv_refl s) hin
    have hcomplete : ∀ x y : Int, MS.mzreach s x0 y0 x y →
        (MS.reveal s x0 y0).mask x y = ' ' := by
      intro x y h
      induction h with
      | base => exact hpost.2
      | step hr hzb hnbr hinb ih =>
        exact hpost.1 _ _ hzb (hnorev _ _ hzb.1) ih _ _ hnbr hinb
    refine ⟨fun x y hxy => ⟨hsound x y hxy, hcomplete x y⟩, ?_⟩
    intro x y hxy hm hres
    have hz := hsound x y hxy hres
    have := MS.mzreach_not_mine hadjP hzero hz
    exact this hm

open Nyanko MS in
/-- C2 witness: revealing `(0,0)` of the fresh mine-free 2×2 board of
either implementation reveals the diagonal cell `(1,1)` (one
reachability step). -/
theorem C2_witness :
    ((Ex.fresh22.reveal 0 0).grid 1 1).revealed = true
    ∧ (MS.reveal Ex.msAll0 0 0).mask 1 1 = ' ' :=
  ⟨((C2_amended.1 Ex.fresh22 0 0 (by decide) (by decide) (by decide) (by decide)
      (by decide)).1 1 1 (by decide)).mpr
    (Nyanko.zreach.step Nyanko.zreach.base (by decide) (by decide) (by decide)),
   ((C2_amended.2 Ex.msAll0 0 0 (by decide) (by decide) (by decide)
      (by decide)).1 1 1 (by decide)).mpr
    (MS.mzreach.step MS.mzreach.base (by decide) (by decide) (by decide))⟩
